import Mathlib

/-!
Shallow embedding of the kifurushi binary packet library
(`kifurushi/abc.py`, `kifurushi/fields.py`, `kifurushi/packet.py`).

Bytes are modelled as `List Nat` (each entry intended `< 256`); machine
packing uses explicit arithmetic modulo `2 ^ (8 * n)`.  The Python
`struct` module's pack/unpack for the integer formats `b B h H i I q Q`
with a byte order is modelled by `structPack` / `structUnpack`.
-/

namespace Kifurushi

/-- Byte order of a field: `!`/`>` are big endian, `<` is little endian;
the native orders `@`/`=` behave as one of these two on a given platform. -/
inductive ByteOrder where
  | big
  | little
deriving DecidableEq

/-- Little-endian byte decomposition of `v` on exactly `n` bytes,
as done by `struct.pack` with a little-endian unsigned format. -/
def toBytesLE : Nat → Nat → List Nat
  | 0, _ => []
  | n + 1, v => v % 256 :: toBytesLE n (v / 256)

/-- Little-endian recomposition of a byte list into an unsigned integer. -/
def fromBytesLE : List Nat → Nat
  | [] => 0
  | b :: bs => b + 256 * fromBytesLE bs

/-- Unsigned byte decomposition on `n` bytes in the given order. -/
def packBytes : ByteOrder → Nat → Nat → List Nat
  | .little, n, v => toBytesLE n v
  | .big, n, v => (toBytesLE n v).reverse

/-- Unsigned recomposition of a byte list in the given order. -/
def unpackBytes : ByteOrder → List Nat → Nat
  | .little, bs => fromBytesLE bs
  | .big, bs => fromBytesLE bs.reverse

/-- Integer format of the `struct` module: signedness and width in bytes
(`B`/`b` give 1, `H`/`h` give 2, `I`/`i` give 4, `Q`/`q` give 8). -/
structure NumFmt where
  signed : Bool
  nbytes : Nat
deriving DecidableEq

/-- `struct.pack` on one integer: checks the format's range and produces the
two's-complement byte string; `none` models the `struct.error` exception. -/
def structPack (o : ByteOrder) (fmt : NumFmt) (v : Int) : Option (List Nat) :=
  if fmt.signed then
    if -(2 ^ (8 * fmt.nbytes - 1) : Int) ≤ v ∧ v < 2 ^ (8 * fmt.nbytes - 1) then
      some (packBytes o fmt.nbytes (v % (2 ^ (8 * fmt.nbytes) : Int)).toNat)
    else none
  else
    if 0 ≤ v ∧ v < 2 ^ (8 * fmt.nbytes) then
      some (packBytes o fmt.nbytes v.toNat)
    else none

/-- `struct.unpack` on one integer from a byte string of the format's width. -/
def structUnpack (o : ByteOrder) (fmt : NumFmt) (bs : List Nat) : Int :=
  let u := unpackBytes o bs
  if fmt.signed ∧ 2 ^ (8 * fmt.nbytes - 1) ≤ u then
    (u : Int) - 2 ^ (8 * fmt.nbytes)
  else (u : Int)

theorem toBytesLE_length (n v : Nat) : (toBytesLE n v).length = n := by
  induction n generalizing v with
  | zero => rfl
  | succ n ih => simp [toBytesLE, ih]

theorem fromBytesLE_toBytesLE (n v : Nat) (h : v < 256 ^ n) :
    fromBytesLE (toBytesLE n v) = v := by
  induction n generalizing v with
  | zero =>
    simp [toBytesLE, fromBytesLE]
    omega
  | succ n ih =>
    have hdiv : v / 256 < 256 ^ n := by
      have : v < 256 ^ n * 256 := by
        have : (256 : Nat) ^ (n + 1) = 256 ^ n * 256 := by ring
        omega
      exact Nat.div_lt_of_lt_mul (by omega)
    simp [toBytesLE, fromBytesLE, ih _ hdiv]
    omega

theorem fromBytesLE_lt (bs : List Nat) (h : ∀ b ∈ bs, b < 256) :
    fromBytesLE bs < 256 ^ bs.length := by
  induction bs with
  | nil => simp [fromBytesLE]
  | cons b bs ih =>
    have hb : b < 256 := h b (by simp)
    have hrest := ih (fun x hx => h x (by simp [hx]))
    simp only [fromBytesLE, List.length_cons]
    have : (256 : Nat) ^ (bs.length + 1) = 256 ^ bs.length * 256 := by ring
    omega

theorem toBytesLE_valid (n v : Nat) : ∀ b ∈ toBytesLE n v, b < 256 := by
  induction n generalizing v with
  | zero => simp [toBytesLE]
  | succ n ih =>
    intro b hb
    simp only [toBytesLE, List.mem_cons] at hb
    rcases hb with h | h
    · omega
    · exact ih _ b h

theorem packBytes_length (o : ByteOrder) (n v : Nat) :
    (packBytes o n v).length = n := by
  cases o <;> simp [packBytes, toBytesLE_length]

theorem packBytes_valid (o : ByteOrder) (n v : Nat) :
    ∀ b ∈ packBytes o n v, b < 256 := by
  cases o <;> intro b hb <;> simp only [packBytes, List.mem_reverse] at hb <;>
    exact toBytesLE_valid n v b hb

theorem unpackBytes_packBytes (o : ByteOrder) (n v : Nat) (h : v < 2 ^ (8 * n)) :
    unpackBytes o (packBytes o n v) = v := by
  have h256 : v < 256 ^ n := by
    have : (256 : Nat) ^ n = 2 ^ (8 * n) := by
      rw [show (256 : Nat) = 2 ^ 8 from rfl, ← pow_mul]
    omega
  cases o <;> simp [unpackBytes, packBytes, fromBytesLE_toBytesLE n v h256]

theorem unpackBytes_lt (o : ByteOrder) (bs : List Nat) (h : ∀ b ∈ bs, b < 256) :
    unpackBytes o bs < 2 ^ (8 * bs.length) := by
  have hp : (256 : Nat) ^ bs.length = 2 ^ (8 * bs.length) := by
    rw [show (256 : Nat) = 2 ^ 8 from rfl, ← pow_mul]
  cases o with
  | little =>
    have := fromBytesLE_lt bs h
    simp only [unpackBytes]
    omega
  | big =>
    have := fromBytesLE_lt bs.reverse (by intro b hb; exact h b (List.mem_reverse.mp hb))
    simp only [List.length_reverse] at this
    simp only [unpackBytes]
    omega

theorem structPack_length (o : ByteOrder) (fmt : NumFmt) (v : Int) (bs : List Nat)
    (h : structPack o fmt v = some bs) : bs.length = fmt.nbytes := by
  unfold structPack at h
  split at h <;> split at h <;> simp_all <;> rw [← h] <;> exact packBytes_length _ _ _

theorem structPack_valid (o : ByteOrder) (fmt : NumFmt) (v : Int) (bs : List Nat)
    (h : structPack o fmt v = some bs) : ∀ b ∈ bs, b < 256 := by
  unfold structPack at h
  split at h <;> split at h <;> simp_all <;> rw [← h] <;> exact packBytes_valid _ _ _

/-- Round trip of `struct` packing: unpacking the packed bytes of an
in-range integer recovers it, for every order and every integer format
of positive width. -/
theorem structUnpack_structPack (o : ByteOrder) (fmt : NumFmt) (v : Int)
    (bs : List Nat) (hn : 0 < fmt.nbytes) (h : structPack o fmt v = some bs) :
    structUnpack o fmt bs = v := by
  have hm : 8 * fmt.nbytes = (8 * fmt.nbytes - 1) + 1 := by omega
  have hBsplit : (2 : Int) ^ (8 * fmt.nbytes)
      = 2 ^ (8 * fmt.nbytes - 1) * 2 := by
    conv_lhs => rw [hm]
    rw [pow_succ]
  have hMpos : (0 : Int) < 2 ^ (8 * fmt.nbytes - 1) := by positivity
  have hBcast : (((2 : Nat) ^ (8 * fmt.nbytes) : Nat) : Int) = 2 ^ (8 * fmt.nbytes) := by
    push_cast; ring
  have hMcast : (((2 : Nat) ^ (8 * fmt.nbytes - 1) : Nat) : Int)
      = 2 ^ (8 * fmt.nbytes - 1) := by
    push_cast; ring
  unfold structPack at h
  by_cases hs : fmt.signed
  · simp only [hs, if_true] at h
    split at h
    · rename_i hrange
      obtain ⟨h1, h2⟩ := hrange
      set u : Nat := (v % (2 ^ (8 * fmt.nbytes) : Int)).toNat with hudef
      have hbs : packBytes o fmt.nbytes u = bs := by
        exact Option.some.inj h
      by_cases hv : 0 ≤ v
      · have hmod : v % (2 ^ (8 * fmt.nbytes) : Int) = v := by
          apply Int.emod_eq_of_lt hv
          omega
        have huv : (u : Int) = v := by
          rw [hudef, hmod, Int.toNat_of_nonneg hv]
        have hlt : u < 2 ^ (8 * fmt.nbytes) := by
          have : (u : Int) < 2 ^ (8 * fmt.nbytes) := by omega
          omega
        have hup := unpackBytes_packBytes o fmt.nbytes u hlt
        rw [hbs] at hup
        have hcond : ¬ 2 ^ (8 * fmt.nbytes - 1) ≤ unpackBytes o bs := by
          rw [hup]
          intro hc
          have : (((2 : Nat) ^ (8 * fmt.nbytes - 1) : Nat) : Int) ≤ (u : Int) := by
            exact_mod_cast hc
          omega
        unfold structUnpack
        simp only [hs, true_and]
        rw [if_neg hcond, hup, huv]
      · push_neg at hv
        have hmod : v % (2 ^ (8 * fmt.nbytes) : Int) = v + 2 ^ (8 * fmt.nbytes) := by
          have h1' : (v + 2 ^ (8 * fmt.nbytes) * 1) % (2 ^ (8 * fmt.nbytes) : Int)
            = v % (2 ^ (8 * fmt.nbytes) : Int) :=
            Int.add_mul_emod_self_left (a := v) (b := (2 ^ (8 * fmt.nbytes) : Int)) (c := 1)

          have hlow : (0 : Int) ≤ v + 2 ^ (8 * fmt.nbytes) := by omega
          have hhigh : v + 2 ^ (8 * fmt.nbytes) < 2 ^ (8 * fmt.nbytes) := by omega
          have h2' := Int.emod_eq_of_lt hlow hhigh
          calc v % (2 ^ (8 * fmt.nbytes) : Int)
              = (v + 2 ^ (8 * fmt.nbytes) * 1) % (2 ^ (8 * fmt.nbytes) : Int) := h1'.symm
            _ = (v + 2 ^ (8 * fmt.nbytes)) % (2 ^ (8 * fmt.nbytes) : Int) := by ring_nf
            _ = v + 2 ^ (8 * fmt.nbytes) := h2'
        have huv : (u : Int) = v + 2 ^ (8 * fmt.nbytes) := by
          rw [hudef, hmod, Int.toNat_of_nonneg (by omega)]
        have hlt : u < 2 ^ (8 * fmt.nbytes) := by
          have : (u : Int) < 2 ^ (8 * fmt.nbytes) := by omega
          omega
        have hup := unpackBytes_packBytes o fmt.nbytes u hlt
        rw [hbs] at hup
        have hcond : 2 ^ (8 * fmt.nbytes - 1) ≤ unpackBytes o bs := by
          rw [hup]
          have : (((2 : Nat) ^ (8 * fmt.nbytes - 1) : Nat) : Int) ≤ (u : Int) := by omega
          exact_mod_cast this
        unfold structUnpack
        simp only [hs, true_and]
        rw [if_pos hcond, hup]
        omega
    · exact absurd h (by simp)
  · simp only [hs, Bool.false_eq_true, if_false] at h
    split at h
    · rename_i hrange
      obtain ⟨h1, h2⟩ := hrange
      have hbs : packBytes o fmt.nbytes v.toNat = bs := Option.some.inj h
      have hlt : v.toNat < 2 ^ (8 * fmt.nbytes) := by omega
      have hup := unpackBytes_packBytes o fmt.nbytes v.toNat hlt
      rw [hbs] at hup
      unfold structUnpack
      simp only [hs, Bool.false_eq_true, false_and, if_false]
      rw [hup, Int.toNat_of_nonneg h1]
    · exact absurd h (by simp)

/-!
Binary strings, modelling Python's `bin(v)[2:]`, zero left-padding and
`int(s, base=2)` as used by `BitsField` (`kifurushi/fields.py`).
A binary string is a `List Bool`, most significant bit first.
-/

/-- Little-endian bit decomposition, by structural recursion on a fuel
argument (`fuel` bounds the value, so the fuel never runs out). -/
def natBitsAux : Nat → Nat → List Bool
  | 0, _ => []
  | _ + 1, 0 => []
  | fuel + 1, v + 1 => ((v + 1) % 2 == 1) :: natBitsAux fuel ((v + 1) / 2)

/-- Little-endian bit decomposition of a natural number, without
leading-zero bits (`natBits 0 = []`). -/
def natBits (v : Nat) : List Bool :=
  natBitsAux v v

theorem natBitsAux_congr :
    ∀ fuel1 fuel2 v, v ≤ fuel1 → v ≤ fuel2 →
      natBitsAux fuel1 v = natBitsAux fuel2 v := by
  intro fuel1
  induction fuel1 with
  | zero =>
    intro fuel2 v h1 _
    have : v = 0 := by omega
    subst this
    cases fuel2 <;> rfl
  | succ f ih =>
    intro fuel2 v h1 h2
    match v, fuel2 with
    | 0, fuel2 => cases fuel2 <;> rfl
    | w + 1, 0 => omega
    | w + 1, f2 + 1 =>
      simp only [natBitsAux]
      rw [ih f2 ((w + 1) / 2) (by omega) (by omega)]

theorem natBits_succ (n : Nat) :
    natBits (n + 1) = ((n + 1) % 2 == 1) :: natBits ((n + 1) / 2) := by
  unfold natBits
  show natBitsAux (n + 1) (n + 1) = _
  simp only [natBitsAux]
  rw [natBitsAux_congr n ((n + 1) / 2) ((n + 1) / 2) (by omega) (by omega)]

/-- `bin(v)[2:]`: the minimal binary string of `v`, most significant bit
first; `bin(0)[2:]` is the one-character string `0`. -/
def binStr (v : Nat) : List Bool :=
  if v = 0 then [false] else (natBits v).reverse

/-- Left zero-padding of a binary string to width `w`
(a no-op when the string is at least `w` long, as in the source). -/
def padBits (w : Nat) (l : List Bool) : List Bool :=
  List.replicate (w - l.length) false ++ l

/-- `int(s, base=2)` on a binary string, most significant bit first
(total function; the source raises `ValueError` on the empty string, which
callers model separately). -/
def bitsToNat (l : List Bool) : Nat :=
  l.foldl (fun a b => 2 * a + (if b then 1 else 0)) 0

theorem bitsToNat_go (l : List Bool) (a : Nat) :
    l.foldl (fun a b => 2 * a + (if b then 1 else 0)) a
      = a * 2 ^ l.length + bitsToNat l := by
  induction l generalizing a with
  | nil => simp [bitsToNat]
  | cons b t ih =>
    simp only [List.foldl_cons, List.length_cons, bitsToNat]
    rw [ih, ih (2 * 0 + _)]
    ring

theorem bitsToNat_append (l1 l2 : List Bool) :
    bitsToNat (l1 ++ l2) = bitsToNat l1 * 2 ^ l2.length + bitsToNat l2 := by
  unfold bitsToNat
  rw [List.foldl_append, bitsToNat_go]
  rfl

theorem bitsToNat_cons (b : Bool) (t : List Bool) :
    bitsToNat (b :: t) = (if b then 1 else 0) * 2 ^ t.length + bitsToNat t := by
  have : b :: t = [b] ++ t := rfl
  rw [this, bitsToNat_append]
  cases b <;> simp [bitsToNat]

theorem bitsToNat_lt (l : List Bool) : bitsToNat l < 2 ^ l.length := by
  induction l with
  | nil => simp [bitsToNat]
  | cons b t ih =>
    rw [bitsToNat_cons]
    simp only [List.length_cons, pow_succ]
    cases b <;> simp <;> omega

theorem bitsToNat_replicate_false (k : Nat) :
    bitsToNat (List.replicate k false) = 0 := by
  induction k with
  | zero => rfl
  | succ k ih =>
    rw [List.replicate_succ, bitsToNat_cons, ih]
    simp

theorem bitsToNat_padBits (w : Nat) (l : List Bool) :
    bitsToNat (padBits w l) = bitsToNat l := by
  unfold padBits
  rw [bitsToNat_append, bitsToNat_replicate_false]
  simp

theorem bitsToNat_natBits_reverse (v : Nat) :
    bitsToNat (natBits v).reverse = v := by
  induction v using Nat.strong_induction_on with
  | _ v ih =>
    match v with
    | 0 => simp [natBits, natBitsAux, bitsToNat]
    | n + 1 =>
      rw [natBits_succ]
      simp only [List.reverse_cons]
      rw [bitsToNat_append]
      have ihd := ih ((n + 1) / 2) (Nat.div_lt_self (Nat.succ_pos n) (by omega))
      rw [ihd]
      have hmod : (n + 1) % 2 = 1 ∨ (n + 1) % 2 = 0 := by omega
      rcases hmod with hm | hm <;> simp [hm, bitsToNat] <;> omega

theorem bitsToNat_binStr (v : Nat) : bitsToNat (binStr v) = v := by
  unfold binStr
  split
  · simp [bitsToNat]; omega
  · exact bitsToNat_natBits_reverse v

theorem natBits_length_le (k v : Nat) (h : v < 2 ^ k) :
    (natBits v).length ≤ k := by
  induction k generalizing v with
  | zero =>
    have : v = 0 := by simpa using h
    simp [this, natBits, natBitsAux]
  | succ k ih =>
    match v with
    | 0 => simp [natBits, natBitsAux]
    | n + 1 =>
      rw [natBits_succ]
      simp only [List.length_cons]
      have : (n + 1) / 2 < 2 ^ k := by
        rw [pow_succ] at h
        omega
      have := ih _ this
      omega

theorem binStr_length_le (w v : Nat) (hw : 0 < w) (h : v < 2 ^ w) :
    (binStr v).length ≤ w := by
  unfold binStr
  split
  · simpa using hw
  · simpa using natBits_length_le w v h

theorem padBits_length (w : Nat) (l : List Bool) (h : l.length ≤ w) :
    (padBits w l).length = w := by
  unfold padBits
  simp only [List.length_append, List.length_replicate]
  omega

theorem padBits_binStr_length (w v : Nat) (hw : 0 < w) (h : v < 2 ^ w) :
    (padBits w (binStr v)).length = w :=
  padBits_length w _ (binStr_length_le w v hw h)

/-- Two binary strings of the same length with the same value are equal:
the `w`-wide zero-padded representation is unique. -/
theorem bitsToNat_inj (l1 l2 : List Bool) (hlen : l1.length = l2.length)
    (hval : bitsToNat l1 = bitsToNat l2) : l1 = l2 := by
  induction l1 generalizing l2 with
  | nil =>
    cases l2 with
    | nil => rfl
    | cons b t => simp at hlen
  | cons b1 t1 ih =>
    cases l2 with
    | nil => simp at hlen
    | cons b2 t2 =>
      simp only [List.length_cons, Nat.succ.injEq] at hlen
      rw [bitsToNat_cons, bitsToNat_cons] at hval
      have ht1 := bitsToNat_lt t1
      have ht2 := bitsToNat_lt t2
      have hpow : (2 : Nat) ^ t1.length = 2 ^ t2.length := by rw [hlen]
      have hb : b1 = b2 := by
        by_contra hne
        cases b1 <;> cases b2 <;> simp at hval hne ⊢ <;> omega
      subst hb
      have : bitsToNat t1 = bitsToNat t2 := by
        cases b1 <;> simp at hval <;> omega
      rw [ih t2 hlen this]

/-- The canonical `w`-wide padded binary string of the value of any
`w`-long binary string is that string itself. -/
theorem padBits_binStr_bitsToNat (l : List Bool) (hw : 0 < l.length) :
    padBits l.length (binStr (bitsToNat l)) = l := by
  apply bitsToNat_inj
  · rw [padBits_binStr_length l.length (bitsToNat l) hw (bitsToNat_lt l)]
  · rw [bitsToNat_padBits, bitsToNat_binStr]

/-!
Fields.  Each Python field object is a structure holding its static
configuration and its mutable state (`value`, `value_was_computed`).
A Python method that mutates the object and may raise becomes a function
returning the new state together with a success flag (`false` models a
raised exception; the returned state is the object's state at raise time).
-/

/-- `NumericField` (hence `ByteField`, `SignedByteField`, ..., `LongField`):
a fixed-width integer field.  The class name determines `fmt`
(`ByteField` is unsigned 1 byte, `SignedShortField` signed 2 bytes, ...). -/
structure NumericField where
  name : String
  fmt : NumFmt
  order : ByteOrder
  default : Int
  value : Int
  value_was_computed : Bool
deriving DecidableEq

/-- Bounds enforced by `numeric_validator` for the class of format `fmt`:
`0 .. 2^(8n)-1` unsigned, `-2^(8n-1) .. 2^(8n-1)-1` signed
(the `LEFT_*` / `RIGHT_*` constants of `utils/random_values.py`). -/
def numericInRange (fmt : NumFmt) (v : Int) : Bool :=
  if fmt.signed then
    decide (-(2 ^ (8 * fmt.nbytes - 1) : Int) ≤ v) &&
      decide (v ≤ (2 ^ (8 * fmt.nbytes - 1) : Int) - 1)
  else
    decide (0 ≤ v) && decide (v ≤ (2 ^ (8 * fmt.nbytes) : Int) - 1)

/-- `CommonField.value` setter on a numeric field: the source first stores
the value (`self._value = value`), then runs `attr.validate(self)`, so on a
validation failure the offending value is already stored. -/
def NumericField.set_value (f : NumericField) (v : Int) : NumericField × Bool :=
  let f' := { f with value := v }
  (f', numericInRange f.fmt v)

/-- `CommonField.raw`: `self._struct.pack(self._value)`. -/
def NumericField.raw (f : NumericField) : Option (List Nat) :=
  structPack f.order f.fmt f.value

/-- `NumericField.compute_value`: short buffers return `b''` and leave the
field untouched; otherwise unpack `size` bytes, mark computed, return rest. -/
def NumericField.compute_value (f : NumericField) (data : List Nat) :
    NumericField × List Nat :=
  if data.length < f.fmt.nbytes then (f, [])
  else
    ({ f with value := structUnpack f.order f.fmt (data.take f.fmt.nbytes),
              value_was_computed := true },
     data.drop f.fmt.nbytes)

/-- `FixedStringField` in its bytes flavor (`decode=False`): a fixed-length
byte-string field of positive `length` (the `size` is `length`). -/
structure FixedStringField where
  name : String
  length : Nat
  default : List Nat
  value : List Nat
  value_was_computed : Bool
deriving DecidableEq

/-- `FixedStringField.raw` (bytes flavor): returns the stored bytes. -/
def FixedStringField.raw (f : FixedStringField) : Option (List Nat) :=
  some f.value

/-- `FixedStringField.compute_value`: same short-buffer contract, else the
`length`-byte slice becomes the value. -/
def FixedStringField.compute_value (f : FixedStringField) (data : List Nat) :
    FixedStringField × List Nat :=
  if data.length < f.length then (f, [])
  else
    ({ f with value := data.take f.length, value_was_computed := true },
     data.drop f.length)

/-- `FieldPart`: one named sub-value of a `BitsField`, `size` bits wide. -/
structure FieldPart where
  name : String
  default : Nat
  size : Nat
  value : Nat
deriving DecidableEq

/-- `FieldPart.value` setter: validates `0 ≤ v ≤ 2^size - 1` before any
mutation; on failure the part is unchanged. -/
def FieldPart.set_value (p : FieldPart) (v : Int) : FieldPart × Bool :=
  if v < 0 ∨ (2 ^ p.size - 1 : Int) < v then (p, false)
  else ({ p with value := v.toNat }, true)

/-- `BitsField` (hence `ByteBitsField`, ..., `LongBitsField`): an ordered
list of parts packed in one storage unit of `nbytes` bytes (`B`/`H`/`I`/`Q`
give 1/2/4/8).  Construction enforces that the part sizes sum to
`8 * nbytes`; theorems carry that invariant as a hypothesis. -/
structure BitsField where
  parts : List FieldPart
  nbytes : Nat
  order : ByteOrder
  value_was_computed : Bool
deriving DecidableEq

/-- The zero-padded binary rendering of one part's current value
(`bin(value)[2:]`, left-padded with `0` up to the part's bit size). -/
def FieldPart.bits (p : FieldPart) : List Bool :=
  padBits p.size (binStr p.value)

/-- `BitsField._get_int_value_from_field_parts` (on current values):
concatenate each part's rendering in list order and parse as one integer. -/
def BitsField.get_int_value_from_field_parts (f : BitsField) : Nat :=
  bitsToNat (f.parts.map FieldPart.bits).flatten

/-- `BitsField.value` getter. -/
def BitsField.value (f : BitsField) : Nat :=
  f.get_int_value_from_field_parts

/-- `BitsField.value_as_tuple`: the tuple of the parts' current values. -/
def BitsField.value_as_tuple (f : BitsField) : List Nat :=
  f.parts.map FieldPart.value

/-- Argument of the `BitsField.value` setter: one integer or a tuple. -/
inductive BitsValue where
  | int (v : Int)
  | tuple (vs : List Int)

/-- Tuple branch of the `BitsField.value` setter: each element is range-checked
against its part and *immediately* written to that part before the next
element is examined, so a failure leaves the earlier parts already updated. -/
def setPartsTuple : List FieldPart → List Int → List FieldPart × Bool
  | ps, [] => (ps, true)
  | [], _ :: _ => ([], true)
  | p :: ps, v :: vs =>
    if v < 0 ∨ (2 ^ p.size - 1 : Int) < v then (p :: ps, false)
    else
      let r := setPartsTuple ps vs
      ({ p with value := v.toNat } :: r.1, r.2)

/-- Integer branch of the `BitsField.value` setter: slice the padded binary
string left-to-right by part sizes, `field_part.value = int(slice, base=2)`.
An empty slice models `int('', base=2)` raising `ValueError` (this happens
exactly for a zero-size part or an exhausted string); the part setter's own
range check cannot fire because a slice of at most `size` bits parses below
`2 ^ size`. -/
def setPartsInt : List FieldPart → List Bool → List FieldPart × Bool
  | [], _ => ([], true)
  | p :: ps, bits =>
    let sv := bits.take p.size
    if sv.isEmpty then (p :: ps, false)
    else
      let r := setPartsInt ps (bits.drop p.size)
      ({ p with value := bitsToNat sv } :: r.1, r.2)

/-- `BitsField.value` setter. -/
def BitsField.set_value (f : BitsField) (val : BitsValue) : BitsField × Bool :=
  match val with
  | .tuple vs =>
    if vs.isEmpty then (f, false)
    else if f.parts.length ≠ vs.length then (f, false)
    else
      let r := setPartsTuple f.parts vs
      ({ f with parts := r.1 }, r.2)
  | .int v =>
    if v < 0 ∨ (2 ^ (8 * f.nbytes) - 1 : Int) < v then (f, false)
    else
      let r := setPartsInt f.parts (padBits (8 * f.nbytes) (binStr v.toNat))
      ({ f with parts := r.1 }, r.2)

/-- `BitsField.raw`: `self._struct.pack(self.value)` with the unsigned
storage format. -/
def BitsField.raw (f : BitsField) : Option (List Nat) :=
  structPack f.order ⟨false, f.nbytes⟩ (f.value : Int)

/-- `BitsField.compute_value`: short-buffer contract, else unpack the
storage integer, run it through the value setter, mark computed.  The third
component is `false` when the setter raised (the exception propagates and
`value_was_computed` is not set). -/
def BitsField.compute_value (f : BitsField) (data : List Nat) :
    BitsField × List Nat × Bool :=
  if data.length < f.nbytes then (f, [], true)
  else
    let u := structUnpack f.order ⟨false, f.nbytes⟩ (data.take f.nbytes)
    let r := f.set_value (.int u)
    if r.2 then ({ r.1 with value_was_computed := true }, data.drop f.nbytes, true)
    else (r.1, [], false)

/-!
Conditional fields and packets.  A `ConditionalField` predicate receives the
in-progress packet; what it can observe is the packet's named attributes,
which mirror the current field (and field-part) values.  The predicate is
therefore modelled as a function over that name-to-value view.
-/

/-- A Python attribute value as observable on a packet: an integer (numeric
fields and field parts) or a byte string (fixed string fields). -/
inductive PyVal where
  | int (v : Int)
  | bytes (bs : List Nat)
deriving DecidableEq

/-- A field instance of any kind, as held by a packet: the closed sum of the
concrete field variants, with `ConditionalField` wrapping an inner field
together with its predicate and its own `_value_was_computed` flag. -/
inductive FieldI where
  | num (f : NumericField)
  | fstr (f : FixedStringField)
  | bits (f : BitsField)
  | cond (condition : (String → Option PyVal) → Bool)
      (value_was_computed : Bool) (inner : FieldI)

/-- The `value_was_computed` flag of a field of any kind. -/
def FieldI.value_was_computed : FieldI → Bool
  | .num f => f.value_was_computed
  | .fstr f => f.value_was_computed
  | .bits f => f.value_was_computed
  | .cond _ b _ => b

/-- `field.name` as resolved by Python attribute lookup: numeric and string
fields expose `name`; a `BitsField` has no `name` attribute (`none` models
the `AttributeError`); a `ConditionalField` forwards to its inner field. -/
def FieldI.nameAttr : FieldI → Option String
  | .num f => some f.name
  | .fstr f => some f.name
  | .bits _ => none
  | .cond _ _ inner => inner.nameAttr

/-- The packet attributes contributed by one field: its own name bound to
its value, or every part name for a `BitsField`; a `ConditionalField`
contributes its inner field's attributes. -/
def FieldI.attrOf : FieldI → String → Option PyVal
  | .num f, n => if n = f.name then some (.int f.value) else none
  | .fstr f, n => if n = f.name then some (.bytes f.value) else none
  | .bits f, n =>
    match f.parts.find? (fun p => p.name == n) with
    | some p => some (.int (p.value : Int))
    | none => none
  | .cond _ _ inner, n => inner.attrOf n

/-- The name-to-value view of a packet with the given fields (names are
unique by the packet construction invariant, so first match suffices). -/
def attrView : List FieldI → String → Option PyVal
  | [], _ => none
  | f :: rest, n =>
    match f.attrOf n with
    | some v => some v
    | none => attrView rest n

/-- `raw` of a field of any kind, given the enclosing packet's view:
`ConditionalField.raw` returns the inner encoding when the predicate holds
and `b''` otherwise. -/
def FieldI.raw : FieldI → (String → Option PyVal) → Option (List Nat)
  | .num f, _ => f.raw
  | .fstr f, _ => f.raw
  | .bits f, _ => f.raw
  | .cond c _ inner, view => if c view then inner.raw view else some []

/-- `compute_value` of a field of any kind: returns the new field state, the
remaining buffer and a success flag (`false` models a propagated exception).
`ConditionalField.compute_value` delegates and copies the inner computed
flag when the predicate holds, and returns the buffer unchanged otherwise. -/
def FieldI.compute_value :
    FieldI → List Nat → (String → Option PyVal) → FieldI × List Nat × Bool
  | .num f, data, _ =>
    let r := f.compute_value data
    (.num r.1, r.2, true)
  | .fstr f, data, _ =>
    let r := f.compute_value data
    (.fstr r.1, r.2, true)
  | .bits f, data, _ =>
    let r := f.compute_value data
    (.bits r.1, r.2.1, r.2.2)
  | .cond c b inner, data, view =>
    if c view then
      let r := inner.compute_value data view
      (.cond c r.1.value_was_computed r.1, r.2.1, r.2.2)
    else (.cond c b inner, data, true)

/-- The decode loop of `Packet.from_bytes`: fields are processed in order;
each field reads the buffer with the packet's *current* view (earlier fields
already updated, the rest untouched) and its result is stored before the
next field runs. -/
def from_bytes_go (done : List FieldI) (pending : List FieldI)
    (data : List Nat) : List FieldI × Bool :=
  match pending with
  | [] => (done, true)
  | f :: rest =>
    let view := attrView (done ++ f :: rest)
    let r := f.compute_value data view
    if r.2.2 then from_bytes_go (done ++ [r.1]) rest r.2.1
    else (done ++ r.1 :: rest, false)

/-- `Packet.from_bytes`: clone the template (which already carries its
values and unset computed flags) and run the decode loop; `none` models an
exception escaping the loop. -/
def Packet.from_bytes (template : List FieldI) (data : List Nat) :
    Option (List FieldI) :=
  let r := from_bytes_go [] template data
  if r.2 then some r.1 else none

/-- `Packet.raw`: concatenation, in declared order, of every field's `raw`
given the packet itself; `none` models a `struct.error`. -/
def Packet.raw (fields : List FieldI) : Option (List Nat) :=
  (fields.mapM (fun f => FieldI.raw f (attrView fields))).map List.flatten

/-- `Packet.all_fields_are_computed`: every field is computed, except that a
`ConditionalField` whose predicate is false on the packet is skipped. -/
def Packet.all_fields_are_computed (fields : List FieldI) : Bool :=
  fields.all (fun f =>
    match f with
    | .cond c b _ => b || ! c (attrView fields)
    | g => g.value_was_computed)

/-- The Python exception kinds raised by the modelled code. -/
inductive PyErr where
  | valueError
  | typeError
  | attributeError
  | notImplementedError
  | structError
deriving DecidableEq

/-- A Python object as it may appear on the right of `packet == other`:
a packet instance (with its class identity) or any non-packet value.
Packet classes are atoms identified by `cls`; `isinstance(other,
self.__class__)` is class-identity in this embedding. -/
inductive PyObj where
  | packet (cls : Nat) (fields : List FieldI)
  | other

/-- `Packet.__eq__`: raises `NotImplementedError` unless `other` is an
instance of the same packet class, and compares raw encodings otherwise. -/
def Packet.eq (cls : Nat) (fields : List FieldI) (o : PyObj) :
    Except PyErr Bool :=
  match o with
  | .packet cls2 fields2 =>
    if cls2 = cls then
      match Packet.raw fields, Packet.raw fields2 with
      | some a, some b => .ok (a == b)
      | _, _ => .error .structError
    else .error .notImplementedError
  | .other => .error .notImplementedError

/-- `Packet.__ne__`: `not self.__eq__(other)`, so an exception raised by
`__eq__` propagates. -/
def Packet.ne (cls : Nat) (fields : List FieldI) (o : PyObj) :
    Except PyErr Bool :=
  match Packet.eq cls fields o with
  | .ok b => .ok (! b)
  | .error e => .error e

/-- Inner loop of `Packet._create_field_mapping` for a `BitsField`: insert
every part name, failing with `AttributeError` on a duplicate. -/
def add_part_names (acc : List (String × FieldI)) (f : FieldI) :
    List FieldPart → Except PyErr (List (String × FieldI))
  | [] => .ok acc
  | p :: ps =>
    if acc.any (fun kv => kv.1 == p.name) then .error .attributeError
    else add_part_names (acc ++ [(p.name, f)]) f ps

/-- `Packet._create_field_mapping`: builds the name-to-field table, raising
`AttributeError` on any duplicate name (field names and `BitsField` part
names alike).  Reading `.name` on a field that lacks it (a
`ConditionalField` wrapping a `BitsField`) is itself an `AttributeError`. -/
def create_field_mapping_go (acc : List (String × FieldI)) :
    List FieldI → Except PyErr (List (String × FieldI))
  | [] => .ok acc
  | f :: rest =>
    match f with
    | .bits b =>
      match add_part_names acc (.bits b) b.parts with
      | .error e => .error e
      | .ok acc2 => create_field_mapping_go acc2 rest
    | g =>
      match g.nameAttr with
      | none => .error .attributeError
      | some n =>
        if acc.any (fun kv => kv.1 == n) then .error .attributeError
        else create_field_mapping_go (acc ++ [(n, g)]) rest

/-- `Packet._create_field_mapping`, entry point (called from `__init__`,
before any packet instance is fully constructed). -/
def create_field_mapping (fields : List FieldI) :
    Except PyErr (List (String × FieldI)) :=
  create_field_mapping_go [] fields

/-- The names one field contributes to the mapping: part names for a
`BitsField`, the resolved `name` attribute otherwise (`none` when the
`name` lookup itself raises). -/
def FieldI.mappingNames : FieldI → Option (List String)
  | .bits b => some (b.parts.map FieldPart.name)
  | g => g.nameAttr.map (fun n => [n])

/-- An argument passed to `extract_layers` after `data`: a packet class
(identified by its field template) or any value that is not one. -/
inductive LayerArg where
  | cls (template : List FieldI)
  | notAClass

/-- Loop of `extract_layers`.  As in the source, after each decoded layer
the cursor is *assigned* `len(packet.raw)` (not advanced by it). -/
def extract_layers_go (data : List Nat) (cursor : Nat) :
    List (List FieldI) → Option (List (List FieldI))
  | [] => some []
  | tmpl :: rest =>
    match Packet.from_bytes tmpl (data.drop cursor) with
    | none => none
    | some p =>
      match Packet.raw p with
      | none => none
      | some bs =>
        match extract_layers_go data bs.length rest with
        | none => none
        | some ps => some (p :: ps)

/-- `extract_layers(data, *args)`: `ValueError` when no class is given,
`TypeError` when an argument is not a `Packet` subclass, then the cursor
loop; an exception escaping a layer's decode propagates. -/
def extract_layers (data : List Nat) (args : List LayerArg) :
    Except PyErr (List (List FieldI)) :=
  if args.isEmpty then .error .valueError
  else if args.any (fun a => match a with | .notAClass => true | _ => false) then
    .error .typeError
  else
    match extract_layers_go data 0
        (args.filterMap (fun a => match a with | .cls t => some t | _ => none)) with
    | some ps => .ok ps
    | none => .error .structError

/-!
Lemmas about the `BitsField` codec.
-/

/-- Sum of the parts' bit widths. -/
def sumSizes (parts : List FieldPart) : Nat :=
  (parts.map FieldPart.size).sum

/-- Modelled from the spec's words (for comparison with the source's
`_get_int_value_from_field_parts`): the unsigned integer obtained by
concatenating each part's value in *exactly* its bit-width, part 0 most
significant, i.e. a left fold `acc * 2 ^ size + value`. -/
def specBitsValue (parts : List FieldPart) : Nat :=
  parts.foldl (fun acc p => acc * 2 ^ p.size + p.value) 0

theorem specBitsValue_go (parts : List FieldPart) (a : Nat) :
    parts.foldl (fun acc p => acc * 2 ^ p.size + p.value) a
      = a * 2 ^ sumSizes parts + specBitsValue parts := by
  induction parts generalizing a with
  | nil => simp [specBitsValue, sumSizes]
  | cons p ps ih =>
    simp only [specBitsValue, List.foldl_cons, sumSizes, List.map_cons, List.sum_cons]
    rw [ih, ih (0 * 2 ^ p.size + p.value)]
    simp only [sumSizes]
    rw [pow_add]
    ring

/-- A valid part's rendering is exactly `size` bits long and parses back to
the part's value. -/
theorem fieldPart_bits_length (p : FieldPart) (h0 : 0 < p.size)
    (hv : p.value < 2 ^ p.size) : p.bits.length = p.size :=
  padBits_binStr_length p.size p.value h0 hv

theorem fieldPart_bits_val (p : FieldPart) : bitsToNat p.bits = p.value := by
  unfold FieldPart.bits
  rw [bitsToNat_padBits, bitsToNat_binStr]

theorem flatten_bits_length (parts : List FieldPart)
    (h : ∀ p ∈ parts, 0 < p.size ∧ p.value < 2 ^ p.size) :
    ((parts.map FieldPart.bits).flatten).length = sumSizes parts := by
  induction parts with
  | nil => simp [sumSizes]
  | cons p ps ih =>
    obtain ⟨h0, hv⟩ := h p (by simp)
    simp only [List.map_cons, List.flatten_cons, List.length_append, sumSizes,
      List.sum_cons]
    rw [fieldPart_bits_length p h0 hv, ih (fun q hq => h q (by simp [hq]))]
    rfl

/-- The source getter agrees with the spec's exact-width concatenation for
parts of positive width holding in-range values. -/
theorem get_int_value_eq_spec (parts : List FieldPart)
    (h : ∀ p ∈ parts, 0 < p.size ∧ p.value < 2 ^ p.size) :
    bitsToNat ((parts.map FieldPart.bits).flatten) = specBitsValue parts := by
  induction parts with
  | nil => simp [bitsToNat, specBitsValue]
  | cons p ps ih =>
    obtain ⟨h0, hv⟩ := h p (by simp)
    have hrest : ∀ q ∈ ps, 0 < q.size ∧ q.value < 2 ^ q.size :=
      fun q hq => h q (by simp [hq])
    simp only [List.map_cons, List.flatten_cons]
    rw [bitsToNat_append, fieldPart_bits_val, flatten_bits_length ps hrest, ih hrest]
    simp only [specBitsValue, List.foldl_cons, zero_mul, zero_add]
    rw [specBitsValue_go ps p.value]
    rfl

/-- Tuple branch: under the claim's bounds every element is written to its
part in order and the assignment succeeds. -/
theorem setPartsTuple_spec (ps : List FieldPart) (vs : List Int)
    (h : List.Forall₂ (fun p w => 0 ≤ w ∧ w < (2 : Int) ^ p.size) ps vs) :
    setPartsTuple ps vs
      = (List.zipWith (fun p w => { p with value := w.toNat }) ps vs, true) := by
  induction h with
  | nil => rfl
  | cons hpw hrest ih =>
    rename_i p w ps' vs'
    obtain ⟨h0, h1⟩ := hpw
    unfold setPartsTuple
    rw [if_neg (by omega)]
    simp [ih]

/-- Integer branch: when every part has positive width and the binary string
is exactly as long as the widths' sum, slicing succeeds and the parts'
renderings re-concatenate to the input string. -/
theorem setPartsInt_spec (ps : List FieldPart) (bits : List Bool)
    (hsz : ∀ p ∈ ps, 0 < p.size) (hlen : bits.length = sumSizes ps) :
    (setPartsInt ps bits).2 = true ∧
      (((setPartsInt ps bits).1.map FieldPart.bits).flatten = bits) ∧
      ((setPartsInt ps bits).1.map FieldPart.size = ps.map FieldPart.size) ∧
      ((setPartsInt ps bits).1.map FieldPart.name = ps.map FieldPart.name) := by
  induction ps generalizing bits with
  | nil =>
    simp only [sumSizes, List.map_nil, List.sum_nil] at hlen
    have : bits = [] := List.eq_nil_of_length_eq_zero hlen
    simp [setPartsInt, this]
  | cons p ps' ih =>
    have h0 : 0 < p.size := hsz p (by simp)
    have hlen' : bits.length = p.size + sumSizes ps' := by
      simpa [sumSizes] using hlen
    have htake : (bits.take p.size).length = p.size := by
      rw [List.length_take]
      omega
    have hne : ¬ (bits.take p.size).isEmpty := by
      cases hbt : bits.take p.size with
      | nil => rw [hbt] at htake; simp at htake; omega
      | cons a t => simp
    unfold setPartsInt
    rw [if_neg (by simpa using hne)]
    have hdrop : (bits.drop p.size).length = sumSizes ps' := by
      rw [List.length_drop]
      omega
    obtain ⟨hok, hflat, hszs, hnames⟩ :=
      ih (bits.drop p.size) (fun q hq => hsz q (by simp [hq])) hdrop
    refine ⟨by simpa using hok, ?_, by simpa using hszs, by simpa using hnames⟩
    simp only [List.map_cons, List.flatten_cons]
    rw [hflat]
    have hbits : FieldPart.bits { p with value := bitsToNat (bits.take p.size) }
        = bits.take p.size := by
      have h2 := padBits_binStr_bitsToNat (bits.take p.size) (by omega)
      rw [htake] at h2
      exact h2
    rw [hbits, List.take_append_drop]

/-- Setting the value getter's own value back through the integer branch is
the identity on the parts. -/
theorem setPartsInt_self (ps : List FieldPart)
    (h : ∀ p ∈ ps, 0 < p.size ∧ p.value < 2 ^ p.size) :
    setPartsInt ps ((ps.map FieldPart.bits).flatten) = (ps, true) := by
  induction ps with
  | nil => rfl
  | cons p ps' ih =>
    obtain ⟨h0, hv⟩ := h p (by simp)
    have hrest : ∀ q ∈ ps', 0 < q.size ∧ q.value < 2 ^ q.size :=
      fun q hq => h q (by simp [hq])
    have hlenp : p.bits.length = p.size := fieldPart_bits_length p h0 hv
    simp only [List.map_cons, List.flatten_cons]
    unfold setPartsInt
    have htake : (p.bits ++ (ps'.map FieldPart.bits).flatten).take p.size = p.bits := by
      rw [← hlenp, List.take_left]
    have hdrop : (p.bits ++ (ps'.map FieldPart.bits).flatten).drop p.size
        = (ps'.map FieldPart.bits).flatten := by
      rw [← hlenp, List.drop_left]
    rw [htake, hdrop]
    have hne : ¬ p.bits.isEmpty := by
      cases hbt : p.bits with
      | nil => rw [hbt] at hlenp; simp at hlenp; omega
      | cons a t => simp
    rw [if_neg (by simpa using hne)]
    rw [ih hrest]
    have hval : bitsToNat p.bits = p.value := fieldPart_bits_val p
    rw [hval]

/-!
Claims C2 and C3: the `BitsField` composite value and its pack/unpack
round trips.
-/

/-- The spec's concrete scenario 1: a one-byte `BitsField` with parts
`version` (4 bits, value 4) and `ihl` (4 bits, value 5). -/
def scenario1Field : BitsField :=
  { parts := [{ name := "version", default := 4, size := 4, value := 4 },
              { name := "ihl", default := 5, size := 4, value := 5 }],
    nbytes := 1, order := .big, value_was_computed := false }

/-- A `BitsField` the library accepts whose second part is zero bits wide
(`FieldPart('b', 0, 0)` passes validation and `8 + 0 = 8` passes the
construction sum check). -/
def zeroWidthPartField : BitsField :=
  { parts := [{ name := "a", default := 255, size := 8, value := 255 },
              { name := "b", default := 0, size := 0, value := 0 }],
    nbytes := 1, order := .big, value_was_computed := false }

/-- Like `zeroWidthPartField` but with part `a` at its default 0. -/
def zeroWidthPartField0 : BitsField :=
  { parts := [{ name := "a", default := 0, size := 8, value := 0 },
              { name := "b", default := 0, size := 0, value := 0 }],
    nbytes := 1, order := .big, value_was_computed := false }

theorem zipWith_set_values (ps : List FieldPart) (vs : List Int)
    (h : List.Forall₂ (fun p w => 0 ≤ w ∧ w < (2 : Int) ^ p.size) ps vs) :
    (List.zipWith (fun p w => { p with value := w.toNat }) ps vs).map
      (fun p => Int.ofNat p.value) = vs := by
  induction h with
  | nil => rfl
  | cons hpw hrest ih =>
    simp only [List.zipWith_cons_cons, List.map_cons, ih]
    rw [List.cons_eq_cons]
    exact ⟨Int.toNat_of_nonneg hpw.1, rfl⟩

/-- C2, counterexample to the claim as stated: on `zeroWidthPartField` the
getter returns 510 while the claimed exact-width concatenation gives 255,
because `bin(0)[2:]` is the one-character string `0`, not the empty string
a zero-bit width would demand. -/
theorem c2_counterexample :
    BitsField.value zeroWidthPartField ≠ specBitsValue zeroWidthPartField.parts ∧
      BitsField.value zeroWidthPartField = 510 ∧
      specBitsValue zeroWidthPartField.parts = 255 := by
  decide

/-- C2 (amended: every part at least one bit wide): the `value` getter of a
`BitsField` whose parts all have positive bit-width and in-range values is
the unsigned integer obtained by concatenating each part's value in exactly
its bit-width, part 0 most significant; `value_as_tuple` is the list of the
parts' values.  The concrete scenario (version=4, ihl=5 over one byte gives
0x45 and (4, 5)) is the witness below. -/
theorem c2_bits_composite_value (f : BitsField)
    (h : ∀ p ∈ f.parts, 0 < p.size ∧ p.value < 2 ^ p.size) :
    f.value = specBitsValue f.parts ∧
      f.value_as_tuple = f.parts.map FieldPart.value := by
  constructor
  · unfold BitsField.value BitsField.get_int_value_from_field_parts
    exact get_int_value_eq_spec f.parts h
  · rfl

/-- C2 witness: the scenario-1 field evaluates to `0x45` with tuple `(4, 5)`. -/
theorem c2_bits_composite_value_witness :
    scenario1Field.value = 69 ∧ scenario1Field.value_as_tuple = [4, 5] := by
  have h := c2_bits_composite_value scenario1Field (by decide)
  exact ⟨by rw [h.1]; decide, by rw [h.2]; decide⟩

/-- C3, counterexample to the claim as stated: `zeroWidthPartField0` has
widths summing to the storage width (8 + 0 = 8); setting the integer 5
raises (`int('', base=2)`) after part `a` was already written, and the
getter then reads 10, not 5. -/
theorem c3_counterexample :
    (zeroWidthPartField0.set_value (.int 5)).2 = false ∧
      (zeroWidthPartField0.set_value (.int 5)).1.value = 10 := by
  decide

/-- C3 (amended: every part at least one bit wide): for a `BitsField` whose
parts have positive bit-widths summing to the storage width, (a) setting a
tuple of per-part in-range values succeeds and `value_as_tuple` returns that
same tuple, and (b) setting any integer `0 ≤ v ≤ 2^W - 1` succeeds and the
`value` getter returns `v`. -/
theorem c3_pack_unpack_idempotent (f : BitsField)
    (hsz : ∀ p ∈ f.parts, 0 < p.size)
    (hsum : sumSizes f.parts = 8 * f.nbytes) (hn : 0 < f.nbytes) :
    (∀ vs : List Int, f.parts ≠ [] →
      List.Forall₂ (fun p w => 0 ≤ w ∧ w < (2 : Int) ^ p.size) f.parts vs →
      (f.set_value (.tuple vs)).2 = true ∧
        ((f.set_value (.tuple vs)).1.value_as_tuple).map Int.ofNat = vs) ∧
    (∀ v : Int, 0 ≤ v → v ≤ (2 : Int) ^ (8 * f.nbytes) - 1 →
      (f.set_value (.int v)).2 = true ∧
        ((f.set_value (.int v)).1.value : Int) = v) := by
  constructor
  · intro vs hne hvs
    have hlen : f.parts.length = vs.length := hvs.length_eq
    have hvne : ¬ vs.isEmpty := by
      cases vs with
      | nil =>
        have : f.parts = [] := List.eq_nil_of_length_eq_zero (by simpa using hlen)
        exact absurd this hne
      | cons a l => simp
    simp only [BitsField.set_value]
    rw [if_neg (by simpa using hvne), if_neg (by omega)]
    rw [setPartsTuple_spec f.parts vs hvs]
    refine ⟨rfl, ?_⟩
    unfold BitsField.value_as_tuple
    rw [List.map_map]
    exact zipWith_set_values f.parts vs hvs
  · intro v h0 h1
    simp only [BitsField.set_value]
    rw [if_neg (by omega)]
    have hW : 0 < 8 * f.nbytes := by omega
    have hvlt : v.toNat < 2 ^ (8 * f.nbytes) := by
      have : v < (2 : Int) ^ (8 * f.nbytes) := by omega
      have hc : (((2 : Nat) ^ (8 * f.nbytes) : Nat) : Int) = (2 : Int) ^ (8 * f.nbytes) := by
        push_cast; ring
      omega
    have hplen : (padBits (8 * f.nbytes) (binStr v.toNat)).length = 8 * f.nbytes :=
      padBits_binStr_length _ _ hW hvlt
    obtain ⟨hok, hflat, _, _⟩ :=
      setPartsInt_spec f.parts (padBits (8 * f.nbytes) (binStr v.toNat)) hsz
        (by rw [hplen, hsum])
    refine ⟨hok, ?_⟩
    unfold BitsField.value BitsField.get_int_value_from_field_parts
    show ((bitsToNat ((List.map FieldPart.bits
      (setPartsInt f.parts (padBits (8 * f.nbytes) (binStr v.toNat))).1).flatten) : Nat) : Int) = v
    rw [hflat, bitsToNat_padBits, bitsToNat_binStr]
    exact Int.toNat_of_nonneg h0

/-- C3 witness: on the scenario-1 field, setting the tuple `(13, 3)` reads
back as `(13, 3)` and setting the integer 212 reads back as 212. -/
theorem c3_pack_unpack_idempotent_witness :
    (scenario1Field.set_value (.tuple [13, 3])).2 = true ∧
      ((scenario1Field.set_value (.tuple [13, 3])).1.value_as_tuple).map
        Int.ofNat = [13, 3] ∧
      (scenario1Field.set_value (.int 212)).2 = true ∧
      ((scenario1Field.set_value (.int 212)).1.value : Int) = 212 := by
  have h := c3_pack_unpack_idempotent scenario1Field (by decide) (by decide) (by decide)
  obtain ⟨ht, hi⟩ := h
  have h1 := ht [13, 3] (by decide)
    (by refine List.Forall₂.cons (by constructor <;> decide) ?_
        refine List.Forall₂.cons (by constructor <;> decide) List.Forall₂.nil)
  have h2 := hi 212 (by decide) (by decide)
  exact ⟨h1.1, h1.2, h2.1, h2.2⟩

/-!
Claims C4 (conditional field), C5 (short buffer), C8 (failed set is not
atomic) and C10 (packet equality raises on foreign operands).
-/

/-- C4: a `ConditionalField` encodes to `b''` when the predicate is false
and delegates to the inner field when it is true; decoding returns the
buffer unchanged when the predicate is false and otherwise delegates,
propagating the inner computed flag.  When the inner encoding is nonempty,
the encoding is empty exactly when the predicate is false. -/
theorem c4_conditional_field (c : (String → Option PyVal) → Bool)
    (b : Bool) (inner : FieldI) (view : String → Option PyVal)
    (data : List Nat) :
    (c view = false →
      FieldI.raw (.cond c b inner) view = some [] ∧
      FieldI.compute_value (.cond c b inner) data view
        = (.cond c b inner, data, true)) ∧
    (c view = true →
      FieldI.raw (.cond c b inner) view = inner.raw view ∧
      FieldI.compute_value (.cond c b inner) data view
        = (.cond c (inner.compute_value data view).1.value_was_computed
            (inner.compute_value data view).1,
           (inner.compute_value data view).2.1,
           (inner.compute_value data view).2.2)) ∧
    (∀ bs, inner.raw view = some bs → bs ≠ [] →
      (FieldI.raw (.cond c b inner) view = some [] ↔ c view = false)) := by
  refine ⟨?_, ?_, ?_⟩
  · intro h
    simp [FieldI.raw, FieldI.compute_value, h]
  · intro h
    simp [FieldI.raw, FieldI.compute_value, h]
  · intro bs hbs hne
    constructor
    · intro hraw
      by_contra hc
      simp only [Bool.not_eq_false] at hc
      simp only [FieldI.raw, hc, if_true] at hraw
      rw [hbs] at hraw
      exact hne (Option.some.inj hraw)
    · intro hc
      simp [FieldI.raw, hc]

/-- Concrete conditional field for the C4 witness: a 2-byte `pie` field
guarded by `apples <= 2`. -/
def applesLe2 : (String → Option PyVal) → Bool := fun view =>
  match view "apples" with
  | some (.int n) => decide (n ≤ 2)
  | _ => false

def pieInner : FieldI := .num ⟨"pie", ⟨false, 2⟩, .big, 1, 1, false⟩

def viewApples1 : String → Option PyVal := fun _ => some (.int 1)

def viewApples5 : String → Option PyVal := fun _ => some (.int 5)

/-- C4 witness at `apples = 5` (predicate false) and `apples = 1`
(predicate true) on a two-byte buffer. -/
theorem c4_conditional_field_witness :
    (FieldI.raw (.cond applesLe2 false pieInner) viewApples5 = some [] ∧
      FieldI.compute_value (.cond applesLe2 false pieInner) [0, 7] viewApples5
        = (.cond applesLe2 false pieInner, [0, 7], true)) ∧
    (FieldI.raw (.cond applesLe2 false pieInner) viewApples1
        = pieInner.raw viewApples1 ∧
      FieldI.compute_value (.cond applesLe2 false pieInner) [0, 7] viewApples1
        = (.cond applesLe2
            (FieldI.compute_value pieInner [0, 7] viewApples1).1.value_was_computed
            (FieldI.compute_value pieInner [0, 7] viewApples1).1,
           (FieldI.compute_value pieInner [0, 7] viewApples1).2.1,
           (FieldI.compute_value pieInner [0, 7] viewApples1).2.2)) ∧
    (FieldI.raw (.cond applesLe2 false pieInner) viewApples1 = some []
      ↔ applesLe2 viewApples1 = false) := by
  refine ⟨(c4_conditional_field applesLe2 false pieInner viewApples5 [0, 7]).1 rfl,
          (c4_conditional_field applesLe2 false pieInner viewApples1 [0, 7]).2.1 rfl,
          (c4_conditional_field applesLe2 false pieInner viewApples1 [0, 7]).2.2
            [0, 1] rfl (by decide)⟩

/-- C5: decoding any fixed-width field (numeric or bits) from a buffer
strictly shorter than its size does not throw: it returns an empty
remaining buffer and the field itself unchanged, so a flag that was false
stays false and the value is untouched. -/
theorem c5_short_buffer (nf : NumericField) (bf : BitsField)
    (d1 d2 : List Nat) (h1 : d1.length < nf.fmt.nbytes)
    (h2 : d2.length < bf.nbytes) :
    nf.compute_value d1 = (nf, []) ∧
      bf.compute_value d2 = (bf, [], true) ∧
      (nf.compute_value d1).1.value_was_computed = nf.value_was_computed ∧
      (bf.compute_value d2).1.value_was_computed = bf.value_was_computed := by
  refine ⟨?_, ?_, ?_, ?_⟩ <;>
    simp [NumericField.compute_value, BitsField.compute_value, h1, h2]

/-- C5 witness: a 2-byte `ShortField` on a 1-byte buffer and the 1-byte
scenario-1 bits field on an empty buffer. -/
theorem c5_short_buffer_witness :
    NumericField.compute_value ⟨"length", ⟨false, 2⟩, .big, 20, 20, false⟩ [7]
        = (⟨"length", ⟨false, 2⟩, .big, 20, 20, false⟩, []) ∧
      BitsField.compute_value scenario1Field [] = (scenario1Field, [], true) := by
  have h := c5_short_buffer ⟨"length", ⟨false, 2⟩, .big, 20, 20, false⟩
    scenario1Field [7] [] (by decide) (by decide)
  exact ⟨h.1, h.2.1⟩

/-- The numeric field `ByteField('apples', 2)` at its default value. -/
def applesField : NumericField := ⟨"apples", ⟨false, 1⟩, .big, 2, 2, false⟩

/-- The numeric field `ShortField('pie', 1)` at its default value. -/
def pieField : NumericField := ⟨"pie", ⟨false, 2⟩, .big, 1, 1, false⟩

/-- C8, counterexample to the claim as stated: assigning 256 to a one-byte
field raises, but the stored value afterwards is the offending 256, not the
previous valid 2 — `CommonField.value` assigns before validating. -/
theorem c8_counterexample :
    (applesField.set_value 256).2 = false ∧
      (applesField.set_value 256).1.value = 256 ∧
      applesField.value = 2 := by
  decide

/-- Tuple assignment failing at the first invalid element: the parts before
it are already updated, the rest keep their previous values. -/
theorem setPartsTuple_fail (p : FieldPart) (ps2 : List FieldPart) (v : Int)
    (vs2 : List Int) (hv : v < 0 ∨ (2 ^ p.size - 1 : Int) < v) :
    ∀ (ps1 : List FieldPart) (vs1 : List Int),
      List.Forall₂ (fun q w => 0 ≤ w ∧ w < (2 : Int) ^ q.size) ps1 vs1 →
      setPartsTuple (ps1 ++ p :: ps2) (vs1 ++ v :: vs2)
        = ((List.zipWith (fun q w => { q with value := w.toNat }) ps1 vs1)
            ++ p :: ps2, false) := by
  intro ps1 vs1 h
  induction h with
  | nil =>
    simp only [List.nil_append, List.zipWith_nil_right]
    unfold setPartsTuple
    rw [if_pos hv]
  | cons hqw hrest ih =>
    rename_i q w qs ws
    obtain ⟨h0, hlt⟩ := hqw
    simp only [List.cons_append]
    unfold setPartsTuple
    rw [if_neg (by omega)]
    simp [ih]

/-- C8 (amended): a failed assignment raises immediately but is not rolled
back: (a) a numeric field stores the offending value before validation
fails; (b) a `FieldPart` set rejected by its range check leaves the part
unchanged (it validates first); (c) a `BitsField` tuple assignment that
fails at some element leaves the parts before it updated to the new values
and the failing part and the later ones unchanged. -/
theorem c8_fail_fast_not_atomic :
    (∀ (f : NumericField) (v : Int), numericInRange f.fmt v = false →
      f.set_value v = ({ f with value := v }, false)) ∧
    (∀ (p : FieldPart) (v : Int), (v < 0 ∨ (2 ^ p.size - 1 : Int) < v) →
      p.set_value v = (p, false)) ∧
    (∀ (f : BitsField) (ps1 : List FieldPart) (p : FieldPart)
        (ps2 : List FieldPart) (vs1 : List Int) (v : Int) (vs2 : List Int),
      f.parts = ps1 ++ p :: ps2 →
      List.Forall₂ (fun q w => 0 ≤ w ∧ w < (2 : Int) ^ q.size) ps1 vs1 →
      (v < 0 ∨ (2 ^ p.size - 1 : Int) < v) →
      vs2.length = ps2.length →
      f.set_value (.tuple (vs1 ++ v :: vs2))
        = ({ f with parts :=
              (List.zipWith (fun q w => { q with value := w.toNat }) ps1 vs1)
                ++ p :: ps2 }, false)) := by
  refine ⟨?_, ?_, ?_⟩
  · intro f v h
    unfold NumericField.set_value
    rw [h]
  · intro p v h
    unfold FieldPart.set_value
    rw [if_pos h]
  · intro f ps1 p ps2 vs1 v vs2 hparts hvs1 hv hlen2
    have hlen1 : ps1.length = vs1.length := hvs1.length_eq
    simp only [BitsField.set_value]
    rw [if_neg (by simp), if_neg (by simp [hparts]; omega)]
    rw [hparts, setPartsTuple_fail p ps2 v vs2 hv ps1 vs1 hvs1]

/-- C8 witness: `apples = 256` raises with 256 stored; a field part refuses
16 and keeps 4; on the scenario-1 field the tuple `(3, 99)` raises with
`version` already set to 3 and `ihl` still 5. -/
theorem c8_fail_fast_not_atomic_witness :
    NumericField.set_value applesField 256
        = ({ applesField with value := 256 }, false) ∧
      FieldPart.set_value ⟨"version", 4, 4, 4⟩ 16 = (⟨"version", 4, 4, 4⟩, false) ∧
      BitsField.set_value scenario1Field (.tuple [3, 99])
        = ({ scenario1Field with
              parts := [⟨"version", 4, 4, 3⟩, ⟨"ihl", 5, 4, 5⟩] }, false) := by
  obtain ⟨ha, hb, hc⟩ := c8_fail_fast_not_atomic
  refine ⟨ha applesField 256 (by decide), hb ⟨"version", 4, 4, 4⟩ 16 (by decide), ?_⟩
  have h := hc scenario1Field [⟨"version", 4, 4, 4⟩] ⟨"ihl", 5, 4, 5⟩ []
    [3] 99 [] rfl
    (List.Forall₂.cons (by constructor <;> decide) List.Forall₂.nil)
    (by decide) rfl
  simpa using h

/-- Same-class test used by `Packet.__eq__` (`isinstance(other,
self.__class__)` with packet classes as atoms). -/
def sameClassObj (cls : Nat) : PyObj → Prop
  | .packet c _ => c = cls
  | .other => False

/-- C10: `packet == other` and `packet != other` raise
`NotImplementedError` whenever `other` is not an instance of the packet's
class; when both operands are instances of the same class, equality is
byte-equality of the raw encodings (and `!=` its negation). -/
theorem c10_eq_foreign_raises (cls : Nat) (fields : List FieldI) :
    (∀ o : PyObj, ¬ sameClassObj cls o →
      Packet.eq cls fields o = .error .notImplementedError ∧
      Packet.ne cls fields o = .error .notImplementedError) ∧
    (∀ (fields2 : List FieldI) (a b : List Nat),
      Packet.raw fields = some a → Packet.raw fields2 = some b →
      Packet.eq cls fields (.packet cls fields2) = .ok (a == b) ∧
      Packet.ne cls fields (.packet cls fields2) = .ok (! (a == b))) := by
  constructor
  · intro o ho
    match o with
    | .packet c2 f2 =>
      have hne : c2 ≠ cls := ho
      simp [Packet.eq, Packet.ne, hne]
    | .other =>
      simp [Packet.eq, Packet.ne]
  · intro fields2 a b ha hb
    simp [Packet.eq, Packet.ne, ha, hb]

/-- C10 witness: a one-field packet compared against a non-packet value, an
instance of a different class, and an instance of its own class. -/
theorem c10_eq_foreign_raises_witness :
    (Packet.eq 0 [pieInner] .other = .error .notImplementedError ∧
      Packet.ne 0 [pieInner] .other = .error .notImplementedError) ∧
    (Packet.eq 0 [pieInner] (.packet 1 [pieInner])
        = .error .notImplementedError ∧
      Packet.ne 0 [pieInner] (.packet 1 [pieInner])
        = .error .notImplementedError) ∧
    (Packet.eq 0 [pieInner] (.packet 0 [pieInner]) = .ok true ∧
      Packet.ne 0 [pieInner] (.packet 0 [pieInner]) = .ok false) := by
  obtain ⟨hfor, hsame⟩ := c10_eq_foreign_raises 0 [pieInner]
  refine ⟨hfor .other (by simp [sameClassObj]),
          hfor (.packet 1 [pieInner]) (by simp [sameClassObj]), ?_⟩
  have h := hsame [pieInner] [0, 1] [0, 1] rfl rfl
  simpa using h

/-!
Claim C9: global name uniqueness at packet construction.
-/

/-- All names the packet's mapping will hold, in insertion order (`none`
when some field's `name` lookup itself raises). -/
def allMappingNames : List FieldI → Option (List String)
  | [] => some []
  | f :: rest =>
    match f.mappingNames, allMappingNames rest with
    | some ns, some rest2 => some (ns ++ rest2)
    | _, _ => none

theorem add_part_names_spec (f : FieldI) (ps : List FieldPart) :
    ∀ acc : List (String × FieldI), (acc.map Prod.fst).Nodup →
      (((acc.map Prod.fst ++ ps.map FieldPart.name).Nodup →
        add_part_names acc f ps
          = .ok (acc ++ ps.map (fun p => (p.name, f)))) ∧
      (¬ (acc.map Prod.fst ++ ps.map FieldPart.name).Nodup →
        add_part_names acc f ps = .error .attributeError)) := by
  induction ps with
  | nil =>
    intro acc hacc
    refine ⟨fun _ => by simp [add_part_names], fun hcon => ?_⟩
    exact absurd (by simpa using hacc) hcon
  | cons p ps ih =>
    intro acc hacc
    by_cases hmem : p.name ∈ acc.map Prod.fst
    · have hany : acc.any (fun kv => kv.1 == p.name) = true := by
        rw [List.any_eq_true]
        obtain ⟨kv, hkv, hfst⟩ := List.mem_map.mp hmem
        exact ⟨kv, hkv, by simp [hfst]⟩
      have herr : add_part_names acc f (p :: ps) = .error .attributeError := by
        show (if (acc.any fun kv => kv.1 == p.name) = true
            then (.error .attributeError : Except PyErr (List (String × FieldI)))
            else add_part_names (acc ++ [(p.name, f)]) f ps) = _
        rw [hany]
        simp
      refine ⟨fun hcon => ?_, fun _ => herr⟩
      exfalso
      have hdisj := List.disjoint_of_nodup_append hcon
      exact hdisj hmem (by simp)
    · have hany : acc.any (fun kv => kv.1 == p.name) = false := by
        rw [List.any_eq_false]
        intro kv hkv
        simp only [beq_iff_eq]
        intro hfst
        exact hmem (List.mem_map.mpr ⟨kv, hkv, hfst⟩)
      have hstep : add_part_names acc f (p :: ps)
          = add_part_names (acc ++ [(p.name, f)]) f ps := by
        show (if (acc.any fun kv => kv.1 == p.name) = true
            then (.error .attributeError : Except PyErr (List (String × FieldI)))
            else add_part_names (acc ++ [(p.name, f)]) f ps) = _
        rw [hany]
        simp
      have hacc2 : ((acc ++ [(p.name, f)]).map Prod.fst).Nodup := by
        simp only [List.map_append, List.map_cons, List.map_nil]
        rw [List.nodup_append]
        refine ⟨hacc, List.nodup_singleton _, ?_⟩
        intro a ha hb
        rw [List.mem_singleton] at hb
        subst hb
        exact hmem ha
      obtain ⟨ihok, iherr⟩ := ih (acc ++ [(p.name, f)]) hacc2
      have hlist : (acc ++ [(p.name, f)]).map Prod.fst ++ ps.map FieldPart.name
          = acc.map Prod.fst ++ (p :: ps).map FieldPart.name := by
        simp
      refine ⟨fun hcon => ?_, fun hcon => ?_⟩
      · rw [hstep, ihok (by rw [hlist]; exact hcon)]
        simp
      · rw [hstep, iherr (by rw [hlist]; exact hcon)]

theorem nodup_append_singleton_of_not_mem {acc : List String} {n : String}
    (hacc : acc.Nodup) (hmem : n ∉ acc) : (acc ++ [n]).Nodup := by
  rw [List.nodup_append]
  refine ⟨hacc, List.nodup_singleton _, ?_⟩
  intro a ha hb
  rw [List.mem_singleton] at hb
  subst hb
  exact hmem ha

theorem mapping_go_spec :
    ∀ (fields : List FieldI) (acc : List (String × FieldI))
      (names : List String),
      allMappingNames fields = some names → (acc.map Prod.fst).Nodup →
      (((acc.map Prod.fst ++ names).Nodup →
        ∃ m, create_field_mapping_go acc fields = .ok m ∧
          m.map Prod.fst = acc.map Prod.fst ++ names) ∧
      (¬ (acc.map Prod.fst ++ names).Nodup →
        create_field_mapping_go acc fields = .error .attributeError)) := by
  intro fields
  induction fields with
  | nil =>
    intro acc names hnames hacc
    simp only [allMappingNames, Option.some.injEq] at hnames
    subst hnames
    refine ⟨fun _ => ⟨acc, by simp [create_field_mapping_go]⟩, fun hcon => ?_⟩
    exact absurd (by simpa using hacc) hcon
  | cons f rest ih =>
    intro acc names hnames hacc
    simp only [allMappingNames] at hnames
    cases hns1 : f.mappingNames with
    | none => rw [hns1] at hnames; simp at hnames
    | some ns1 =>
      rw [hns1] at hnames
      cases hns2 : allMappingNames rest with
      | none => rw [hns2] at hnames; simp at hnames
      | some names2 =>
        rw [hns2] at hnames
        simp only [Option.some.injEq] at hnames
        subst hnames
        cases f with
        | bits b =>
          simp only [FieldI.mappingNames, Option.some.injEq] at hns1
          subst hns1
          have hgo1 : create_field_mapping_go acc (.bits b :: rest)
              = match add_part_names acc (.bits b) b.parts with
                | .error e => .error e
                | .ok acc2 => create_field_mapping_go acc2 rest := rfl
          by_cases hcon1 : (acc.map Prod.fst ++ b.parts.map FieldPart.name).Nodup
          · have hadd := (add_part_names_spec (.bits b) b.parts acc hacc).1 hcon1
            have hgo : create_field_mapping_go acc (.bits b :: rest)
                = create_field_mapping_go
                    (acc ++ b.parts.map (fun p => (p.name, .bits b))) rest := by
              rw [hgo1, hadd]
            have hacc2names : (acc ++ b.parts.map
                (fun p => (p.name, FieldI.bits b))).map Prod.fst
                = acc.map Prod.fst ++ b.parts.map FieldPart.name := by
              simp
            have hacc2 : ((acc ++ b.parts.map
                (fun p => (p.name, FieldI.bits b))).map Prod.fst).Nodup := by
              rw [hacc2names]; exact hcon1
            obtain ⟨ihok, iherr⟩ := ih
              (acc ++ b.parts.map (fun p => (p.name, .bits b))) names2 hns2 hacc2
            refine ⟨fun hcon => ?_, fun hcon => ?_⟩
            · obtain ⟨m, hm, hmn⟩ := ihok
                (by rw [hacc2names, List.append_assoc]; exact hcon)
              exact ⟨m, by rw [hgo]; exact hm,
                by rw [hmn, hacc2names, List.append_assoc]⟩
            · rw [hgo]
              exact iherr (by rw [hacc2names, List.append_assoc]; exact hcon)
          · have hadd := (add_part_names_spec (.bits b) b.parts acc hacc).2 hcon1
            have hgo : create_field_mapping_go acc (.bits b :: rest)
                = .error .attributeError := by
              rw [hgo1, hadd]
            refine ⟨fun hcon => ?_, fun _ => hgo⟩
            exfalso
            apply hcon1
            have hsub : (acc.map Prod.fst ++ b.parts.map FieldPart.name).Sublist
                (acc.map Prod.fst ++ (b.parts.map FieldPart.name ++ names2)) := by
              rw [← List.append_assoc]
              exact List.sublist_append_left _ _
            exact hcon.sublist hsub
        | num g =>
          obtain ⟨n, hna, hn1⟩ : ∃ n, FieldI.nameAttr (FieldI.num g) = some n
              ∧ ns1 = [n] := by
            simp only [FieldI.mappingNames] at hns1
            cases hna : FieldI.nameAttr (FieldI.num g) with
            | none => rw [hna] at hns1; simp at hns1
            | some n =>
              rw [hna] at hns1
              have h2 : [n] = ns1 := by simpa using hns1
              exact ⟨n, rfl, h2.symm⟩
          subst hn1
          have hgo1 : create_field_mapping_go acc (FieldI.num g :: rest)
              = if (acc.any fun kv => kv.1 == n) = true
                then .error .attributeError
                else create_field_mapping_go (acc ++ [(n, FieldI.num g)]) rest := by
            show (match FieldI.nameAttr (FieldI.num g) with
                | none => (.error .attributeError :
                    Except PyErr (List (String × FieldI)))
                | some n2 =>
                  if (acc.any fun kv => kv.1 == n2) = true
                  then .error .attributeError
                  else create_field_mapping_go (acc ++ [(n2, FieldI.num g)]) rest) = _
            rw [hna]
          by_cases hmem : n ∈ acc.map Prod.fst
          · have hany : acc.any (fun kv => kv.1 == n) = true := by
              rw [List.any_eq_true]
              obtain ⟨kv, hkv, hfst⟩ := List.mem_map.mp hmem
              exact ⟨kv, hkv, by simp [hfst]⟩
            have hgo : create_field_mapping_go acc (FieldI.num g :: rest)
                = .error .attributeError := by
              rw [hgo1, hany]
              simp
            refine ⟨fun hcon => ?_, fun _ => hgo⟩
            exfalso
            have hdisj := List.disjoint_of_nodup_append hcon
            exact hdisj hmem (by simp)
          · have hany : acc.any (fun kv => kv.1 == n) = false := by
              rw [List.any_eq_false]
              intro kv hkv
              simp only [beq_iff_eq]
              intro hfst
              exact hmem (List.mem_map.mpr ⟨kv, hkv, hfst⟩)
            have hgo : create_field_mapping_go acc (FieldI.num g :: rest)
                = create_field_mapping_go (acc ++ [(n, FieldI.num g)]) rest := by
              rw [hgo1, hany]
              simp
            have hacc2names : ((acc ++ [(n, FieldI.num g)]).map Prod.fst)
                = acc.map Prod.fst ++ [n] := by simp
            have hacc2 : ((acc ++ [(n, FieldI.num g)]).map Prod.fst).Nodup := by
              rw [hacc2names]
              exact nodup_append_singleton_of_not_mem hacc hmem
            obtain ⟨ihok, iherr⟩ := ih (acc ++ [(n, FieldI.num g)]) names2 hns2 hacc2
            have hlist : (acc ++ [(n, FieldI.num g)]).map Prod.fst ++ names2
                = acc.map Prod.fst ++ ([n] ++ names2) := by
              rw [hacc2names, List.append_assoc]
            refine ⟨fun hcon => ?_, fun hcon => ?_⟩
            · obtain ⟨m, hm, hmn⟩ := ihok (by rw [hlist]; exact hcon)
              exact ⟨m, by rw [hgo]; exact hm, by rw [hmn, hlist]⟩
            · rw [hgo]
              exact iherr (by rw [hlist]; exact hcon)
        | fstr g =>
          obtain ⟨n, hna, hn1⟩ : ∃ n, FieldI.nameAttr (FieldI.fstr g) = some n
              ∧ ns1 = [n] := by
            simp only [FieldI.mappingNames] at hns1
            cases hna : FieldI.nameAttr (FieldI.fstr g) with
            | none => rw [hna] at hns1; simp at hns1
            | some n =>
              rw [hna] at hns1
              have h2 : [n] = ns1 := by simpa using hns1
              exact ⟨n, rfl, h2.symm⟩
          subst hn1
          have hgo1 : create_field_mapping_go acc (FieldI.fstr g :: rest)
              = if (acc.any fun kv => kv.1 == n) = true
                then .error .attributeError
                else create_field_mapping_go (acc ++ [(n, FieldI.fstr g)]) rest := by
            show (match FieldI.nameAttr (FieldI.fstr g) with
                | none => (.error .attributeError :
                    Except PyErr (List (String × FieldI)))
                | some n2 =>
                  if (acc.any fun kv => kv.1 == n2) = true
                  then .error .attributeError
                  else create_field_mapping_go (acc ++ [(n2, FieldI.fstr g)]) rest) = _
            rw [hna]
          by_cases hmem : n ∈ acc.map Prod.fst
          · have hany : acc.any (fun kv => kv.1 == n) = true := by
              rw [List.any_eq_true]
              obtain ⟨kv, hkv, hfst⟩ := List.mem_map.mp hmem
              exact ⟨kv, hkv, by simp [hfst]⟩
            have hgo : create_field_mapping_go acc (FieldI.fstr g :: rest)
                = .error .attributeError := by
              rw [hgo1, hany]
              simp
            refine ⟨fun hcon => ?_, fun _ => hgo⟩
            exfalso
            have hdisj := List.disjoint_of_nodup_append hcon
            exact hdisj hmem (by simp)
          · have hany : acc.any (fun kv => kv.1 == n) = false := by
              rw [List.any_eq_false]
              intro kv hkv
              simp only [beq_iff_eq]
              intro hfst
              exact hmem (List.mem_map.mpr ⟨kv, hkv, hfst⟩)
            have hgo : create_field_mapping_go acc (FieldI.fstr g :: rest)
                = create_field_mapping_go (acc ++ [(n, FieldI.fstr g)]) rest := by
              rw [hgo1, hany]
              simp
            have hacc2names : ((acc ++ [(n, FieldI.fstr g)]).map Prod.fst)
                = acc.map Prod.fst ++ [n] := by simp
            have hacc2 : ((acc ++ [(n, FieldI.fstr g)]).map Prod.fst).Nodup := by
              rw [hacc2names]
              exact nodup_append_singleton_of_not_mem hacc hmem
            obtain ⟨ihok, iherr⟩ := ih (acc ++ [(n, FieldI.fstr g)]) names2 hns2 hacc2
            have hlist : (acc ++ [(n, FieldI.fstr g)]).map Prod.fst ++ names2
                = acc.map Prod.fst ++ ([n] ++ names2) := by
              rw [hacc2names, List.append_assoc]
            refine ⟨fun hcon => ?_, fun hcon => ?_⟩
            · obtain ⟨m, hm, hmn⟩ := ihok (by rw [hlist]; exact hcon)
              exact ⟨m, by rw [hgo]; exact hm, by rw [hmn, hlist]⟩
            · rw [hgo]
              exact iherr (by rw [hlist]; exact hcon)
        | cond c bb inner =>
          obtain ⟨n, hna, hn1⟩ : ∃ n, FieldI.nameAttr (FieldI.cond c bb inner) = some n
              ∧ ns1 = [n] := by
            simp only [FieldI.mappingNames] at hns1
            cases hna : FieldI.nameAttr (FieldI.cond c bb inner) with
            | none => rw [hna] at hns1; simp at hns1
            | some n =>
              rw [hna] at hns1
              have h2 : [n] = ns1 := by simpa using hns1
              exact ⟨n, rfl, h2.symm⟩
          subst hn1
          have hgo1 : create_field_mapping_go acc (FieldI.cond c bb inner :: rest)
              = if (acc.any fun kv => kv.1 == n) = true
                then .error .attributeError
                else create_field_mapping_go (acc ++ [(n, FieldI.cond c bb inner)]) rest := by
            show (match FieldI.nameAttr (FieldI.cond c bb inner) with
                | none => (.error .attributeError :
                    Except PyErr (List (String × FieldI)))
                | some n2 =>
                  if (acc.any fun kv => kv.1 == n2) = true
                  then .error .attributeError
                  else create_field_mapping_go (acc ++ [(n2, FieldI.cond c bb inner)]) rest) = _
            rw [hna]
          by_cases hmem : n ∈ acc.map Prod.fst
          · have hany : acc.any (fun kv => kv.1 == n) = true := by
              rw [List.any_eq_true]
              obtain ⟨kv, hkv, hfst⟩ := List.mem_map.mp hmem
              exact ⟨kv, hkv, by simp [hfst]⟩
            have hgo : create_field_mapping_go acc (FieldI.cond c bb inner :: rest)
                = .error .attributeError := by
              rw [hgo1, hany]
              simp
            refine ⟨fun hcon => ?_, fun _ => hgo⟩
            exfalso
            have hdisj := List.disjoint_of_nodup_append hcon
            exact hdisj hmem (by simp)
          · have hany : acc.any (fun kv => kv.1 == n) = false := by
              rw [List.any_eq_false]
              intro kv hkv
              simp only [beq_iff_eq]
              intro hfst
              exact hmem (List.mem_map.mpr ⟨kv, hkv, hfst⟩)
            have hgo : create_field_mapping_go acc (FieldI.cond c bb inner :: rest)
                = create_field_mapping_go (acc ++ [(n, FieldI.cond c bb inner)]) rest := by
              rw [hgo1, hany]
              simp
            have hacc2names : ((acc ++ [(n, FieldI.cond c bb inner)]).map Prod.fst)
                = acc.map Prod.fst ++ [n] := by simp
            have hacc2 : ((acc ++ [(n, FieldI.cond c bb inner)]).map Prod.fst).Nodup := by
              rw [hacc2names]
              exact nodup_append_singleton_of_not_mem hacc hmem
            obtain ⟨ihok, iherr⟩ := ih (acc ++ [(n, FieldI.cond c bb inner)]) names2 hns2 hacc2
            have hlist : (acc ++ [(n, FieldI.cond c bb inner)]).map Prod.fst ++ names2
                = acc.map Prod.fst ++ ([n] ++ names2) := by
              rw [hacc2names, List.append_assoc]
            refine ⟨fun hcon => ?_, fun hcon => ?_⟩
            · obtain ⟨m, hm, hmn⟩ := ihok (by rw [hlist]; exact hcon)
              exact ⟨m, by rw [hgo]; exact hm, by rw [hmn, hlist]⟩
            · rw [hgo]
              exact iherr (by rw [hlist]; exact hcon)

/-- C9: building the name-to-field table (done inside `Packet.__init__`,
before any instance is available) fails with `AttributeError` exactly when
two fields, a field and a field part, or two field parts share a name; with
all names distinct it succeeds and the table holds exactly those names. -/
theorem c9_name_uniqueness (fields : List FieldI) (names : List String)
    (h : allMappingNames fields = some names) :
    (¬ names.Nodup → create_field_mapping fields = .error .attributeError) ∧
    (names.Nodup → ∃ m, create_field_mapping fields = .ok m ∧
      m.map Prod.fst = names) := by
  obtain ⟨hok, herr⟩ := mapping_go_spec fields [] names h (by simp)
  constructor
  · intro hdup
    exact herr (by simpa using hdup)
  · intro hnd
    obtain ⟨m, hm, hmn⟩ := hok (by simpa using hnd)
    exact ⟨m, hm, by simpa using hmn⟩

/-- C9 witness: two fields named `apples` collide (also when the second
`apples` is a `BitsField` part name), while distinct names succeed. -/
theorem c9_name_uniqueness_witness :
    create_field_mapping [.num applesField, .num applesField]
        = .error .attributeError ∧
    create_field_mapping
        [.num applesField,
         .bits ⟨[⟨"apples", 0, 8, 0⟩], 1, .big, false⟩]
        = .error .attributeError ∧
    (∃ m, create_field_mapping [.num pieField, .num applesField] = .ok m ∧
      m.map Prod.fst = ["pie", "apples"]) := by
  refine ⟨(c9_name_uniqueness [.num applesField, .num applesField]
      ["apples", "apples"] (by decide)).1 (by decide),
    (c9_name_uniqueness [.num applesField,
        .bits ⟨[⟨"apples", 0, 8, 0⟩], 1, .big, false⟩]
      ["apples", "apples"] (by decide)).1 (by decide),
    (c9_name_uniqueness [.num pieField, .num applesField]
      ["pie", "apples"] (by decide)).2 (by decide)⟩

/-!
Claim C7: `all_fields_are_computed` and its behavior after `from_bytes`.
-/

/-- The byte size of a field (`size` property): format width for numeric
fields, string length for fixed strings, storage width for bits fields, the
inner size for a conditional. -/
def FieldI.sizeB : FieldI → Nat
  | .num f => f.fmt.nbytes
  | .fstr f => f.length
  | .bits f => f.nbytes
  | .cond _ _ inner => inner.sizeB

/-- A field is one of the fixed-size non-conditional kinds. -/
def FieldI.isFixedKind : FieldI → Prop
  | .num _ => True
  | .fstr _ => True
  | .bits _ => True
  | .cond _ _ _ => False

/-- Invariants a freshly constructed fixed field satisfies, as needed to
decode: positive size, the bits construction invariant, an unset computed
flag. -/
def decodeOk : FieldI → Prop
  | .num f => 0 < f.fmt.nbytes ∧ f.value_was_computed = false
  | .fstr f => 0 < f.length ∧ f.value_was_computed = false
  | .bits f => 0 < f.nbytes ∧ sumSizes f.parts = 8 * f.nbytes ∧
      (∀ p ∈ f.parts, 0 < p.size) ∧ f.value_was_computed = false
  | .cond _ _ _ => False

/-- Bytes as Python guarantees them: every entry below 256. -/
def validBytes (bs : List Nat) : Prop := ∀ b ∈ bs, b < 256

theorem validBytes_drop (bs : List Nat) (n : Nat) (h : validBytes bs) :
    validBytes (bs.drop n) :=
  fun b hb => h b (List.mem_of_mem_drop hb)

theorem validBytes_nil : validBytes [] := by
  intro b hb
  cases hb

/-- Unsigned unpack of valid bytes of width `n` is in `[0, 2^(8n))`. -/
theorem structUnpack_unsigned_bounds (o : ByteOrder) (n : Nat) (bs : List Nat)
    (hlen : bs.length = n) (hv : validBytes bs) :
    structUnpack o ⟨false, n⟩ bs = ((unpackBytes o bs : Nat) : Int) ∧
      unpackBytes o bs < 2 ^ (8 * n) := by
  constructor
  · unfold structUnpack
    simp
  · have := unpackBytes_lt o bs hv
    rw [hlen] at this
    exact this

/-- One decode step of a fixed field: with at least `sizeB` bytes the field
comes back computed and the buffer advances by `sizeB`; with fewer bytes the
field is returned uncomputed with an empty remainder.  No exception either
way. -/
theorem fixed_decode_step (f : FieldI) (h : decodeOk f) (data : List Nat)
    (hv : validBytes data) (view : String → Option PyVal) :
    ∃ f', FieldI.compute_value f data view
        = (f', if f.sizeB ≤ data.length then data.drop f.sizeB else [], true) ∧
      f'.value_was_computed = decide (f.sizeB ≤ data.length) ∧
      f'.isFixedKind ∧ f'.sizeB = f.sizeB := by
  cases f with
  | num g =>
    obtain ⟨hpos, hflag⟩ := h
    by_cases hle : g.fmt.nbytes ≤ data.length
    · refine ⟨.num { g with value := structUnpack g.order g.fmt (data.take g.fmt.nbytes), value_was_computed := true }, ?_, ?_, ?_, ?_⟩
      · simp only [FieldI.compute_value, NumericField.compute_value, FieldI.sizeB]
        rw [if_neg (by omega), if_pos hle]
      · simp [FieldI.value_was_computed, FieldI.sizeB, hle]
      · trivial
      · rfl
    · refine ⟨.num g, ?_, ?_, ?_, ?_⟩
      · simp only [FieldI.compute_value, NumericField.compute_value, FieldI.sizeB]
        rw [if_pos (by omega), if_neg hle]
      · simp [FieldI.value_was_computed, FieldI.sizeB, hle, hflag]
      · trivial
      · rfl
  | fstr g =>
    obtain ⟨hpos, hflag⟩ := h
    by_cases hle : g.length ≤ data.length
    · refine ⟨.fstr { g with value := data.take g.length, value_was_computed := true }, ?_, ?_, ?_, ?_⟩
      · simp only [FieldI.compute_value, FixedStringField.compute_value, FieldI.sizeB]
        rw [if_neg (by omega), if_pos hle]
      · simp [FieldI.value_was_computed, FieldI.sizeB, hle]
      · trivial
      · rfl
    · refine ⟨.fstr g, ?_, ?_, ?_, ?_⟩
      · simp only [FieldI.compute_value, FixedStringField.compute_value, FieldI.sizeB]
        rw [if_pos (by omega), if_neg hle]
      · simp [FieldI.value_was_computed, FieldI.sizeB, hle, hflag]
      · trivial
      · rfl
  | bits g =>
    obtain ⟨hpos, hsum, hsz, hflag⟩ := h
    by_cases hle : g.nbytes ≤ data.length
    · have htake : (data.take g.nbytes).length = g.nbytes := by
        rw [List.length_take]; omega
      have hvt : validBytes (data.take g.nbytes) :=
        fun b hb => hv b (List.mem_of_mem_take hb)
      obtain ⟨hunp, hbound⟩ := structUnpack_unsigned_bounds g.order g.nbytes
        (data.take g.nbytes) htake hvt
      set u : Nat := unpackBytes g.order (data.take g.nbytes) with hudef
      have hrange : ¬ (((u : Nat) : Int) < 0 ∨
          (2 ^ (8 * g.nbytes) - 1 : Int) < ((u : Nat) : Int)) := by
        push_neg
        constructor
        · exact Int.natCast_nonneg u
        · have h1 : ((u : Nat) : Int) < ((2 ^ (8 * g.nbytes) : Nat) : Int) := by
            exact_mod_cast hbound
          have hc : (((2 : Nat) ^ (8 * g.nbytes) : Nat) : Int)
              = (2 : Int) ^ (8 * g.nbytes) := by push_cast; ring
          omega
      have hW : 0 < 8 * g.nbytes := by omega
      have hplen : (padBits (8 * g.nbytes) (binStr ((u : Int)).toNat)).length
          = 8 * g.nbytes := by
        rw [Int.toNat_natCast]
        exact padBits_binStr_length _ _ hW hbound
      obtain ⟨hok, _, _, _⟩ := setPartsInt_spec g.parts
        (padBits (8 * g.nbytes) (binStr ((u : Int)).toNat)) hsz
        (by rw [hplen, hsum])
      have hset2 : (g.set_value (.int (u : Int))).2 = true := by
        simp only [BitsField.set_value]
        rw [if_neg hrange]
        exact hok
      refine ⟨.bits { (g.set_value (.int (u : Int))).1 with value_was_computed := true }, ?_, ?_, ?_, ?_⟩
      · simp only [FieldI.compute_value, BitsField.compute_value, FieldI.sizeB]
        rw [if_neg (by omega), if_pos hle]
        rw [hunp]
        rw [if_pos hset2]
      · simp [FieldI.value_was_computed, FieldI.sizeB, hle]
      · trivial
      · show (g.set_value (.int (u : Int))).1.nbytes = g.nbytes
        simp only [BitsField.set_value]
        split <;> rfl
    · refine ⟨.bits g, ?_, ?_, ?_, ?_⟩
      · simp only [FieldI.compute_value, BitsField.compute_value, FieldI.sizeB]
        rw [if_pos (by omega), if_neg hle]
      · simp [FieldI.value_was_computed, FieldI.sizeB, hle, hflag]
      · trivial
      · rfl
  | cond c b inner => exact absurd h (by simp [decodeOk])

/-- Total declared size, in bytes, of a list of fields. -/
def sizesSum (fields : List FieldI) : Nat :=
  (fields.map FieldI.sizeB).sum

theorem list_all_congr (l : List FieldI) (p q : FieldI → Bool)
    (h : ∀ f ∈ l, p f = q f) : l.all p = l.all q := by
  induction l with
  | nil => rfl
  | cons a t ih =>
    simp only [List.all_cons]
    rw [h a (by simp), ih (fun f hf => h f (by simp [hf]))]

/-- On a packet without conditional fields, `all_fields_are_computed` is
just the conjunction of the computed flags. -/
theorem all_fields_no_cond (fields : List FieldI)
    (h : ∀ f ∈ fields, f.isFixedKind) :
    Packet.all_fields_are_computed fields
      = fields.all FieldI.value_was_computed := by
  unfold Packet.all_fields_are_computed
  apply list_all_congr
  intro f hf
  have := h f hf
  match f with
  | .num g => rfl
  | .fstr g => rfl
  | .bits g => rfl
  | .cond c b inner => exact absurd this (by simp [FieldI.isFixedKind])

/-- Decode loop over fixed fields: it never raises, processes every field,
and the computed flags are all set exactly when the buffer holds at least
the fields' total size. -/
theorem fixed_decode_go (pending : List FieldI) :
    ∀ (done : List FieldI) (data : List Nat),
      (∀ f ∈ pending, decodeOk f) → validBytes data →
      ∃ Q, from_bytes_go done pending data = (done ++ Q, true) ∧
        (∀ q ∈ Q, FieldI.isFixedKind q) ∧
        (Q.all FieldI.value_was_computed
          = decide (sizesSum pending ≤ data.length)) := by
  induction pending with
  | nil =>
    intro done data _ _
    exact ⟨[], by simp [from_bytes_go], by simp, by simp [sizesSum]⟩
  | cons f rest ih =>
    intro done data hok hv
    obtain ⟨f', hstep, hflag, hfix, hsz⟩ :=
      fixed_decode_step f (hok f (by simp)) data hv
        (attrView (done ++ f :: rest))
    have hrest : ∀ g ∈ rest, decodeOk g := fun g hg => hok g (by simp [hg])
    by_cases hle : f.sizeB ≤ data.length
    · obtain ⟨Q', hgo', hfix', hall'⟩ := ih (done ++ [f'])
        (data.drop f.sizeB) hrest (validBytes_drop data _ hv)
      refine ⟨f' :: Q', ?_, ?_, ?_⟩
      · show from_bytes_go done (f :: rest) data = _
        simp only [from_bytes_go]
        rw [hstep]
        simp [hle, hgo']
      · intro q hq
        rcases List.mem_cons.mp hq with h1 | h1
        · subst h1; exact hfix
        · exact hfix' q h1
      · simp only [List.all_cons, hflag, hall']
        have hdl : (data.drop f.sizeB).length = data.length - f.sizeB := by
          simp
        rw [hdl]
        have : (sizesSum (f :: rest) ≤ data.length)
            ↔ (sizesSum rest ≤ data.length - f.sizeB) := by
          simp only [sizesSum, List.map_cons, List.sum_cons]
          omega
        have hd1 : decide (f.sizeB ≤ data.length) = true := by simpa using hle
        rw [hd1, Bool.true_and, decide_eq_decide]
        exact this.symm
    · obtain ⟨Q', hgo', hfix', hall'⟩ := ih (done ++ [f']) [] hrest validBytes_nil
      refine ⟨f' :: Q', ?_, ?_, ?_⟩
      · show from_bytes_go done (f :: rest) data = _
        simp only [from_bytes_go]
        rw [hstep]
        simp [hle, hgo']
      · intro q hq
        rcases List.mem_cons.mp hq with h1 | h1
        · subst h1; exact hfix
        · exact hfix' q h1
      · simp only [List.all_cons, hflag]
        have hcon : ¬ (sizesSum (f :: rest) ≤ data.length) := by
          simp only [sizesSum, List.map_cons, List.sum_cons]
          omega
        simp [hle, hcon]

/-- C7: (a) `all_fields_are_computed` is true exactly when every field has
its computed flag set, a `ConditionalField` with false predicate counting as
satisfied; (b) consequently, on a packet of fixed non-conditional fields,
`from_bytes` never raises and the check succeeds exactly when the buffer is
at least the packet's total size — false on a truncated buffer, true on a
complete one. -/
theorem c7_all_fields_are_computed (fields : List FieldI)
    (template : List FieldI) (data : List Nat) :
    (Packet.all_fields_are_computed fields = true ↔
      ∀ f ∈ fields, f.value_was_computed = true ∨
        (∃ c b inner, f = .cond c b inner ∧ c (attrView fields) = false)) ∧
    ((∀ f ∈ template, decodeOk f) → validBytes data →
      ∃ Q, Packet.from_bytes template data = some Q ∧
        (Packet.all_fields_are_computed Q
          = decide (sizesSum template ≤ data.length))) := by
  constructor
  · unfold Packet.all_fields_are_computed
    rw [List.all_eq_true]
    constructor
    · intro h f hf
      have := h f hf
      match f with
      | .num g => exact Or.inl this
      | .fstr g => exact Or.inl this
      | .bits g => exact Or.inl this
      | .cond c b inner =>
        simp only [Bool.or_eq_true, Bool.not_eq_true'] at this
        rcases this with h1 | h1
        · exact Or.inl h1
        · exact Or.inr ⟨c, b, inner, rfl, h1⟩
    · intro h f hf
      have := h f hf
      match f with
      | .num g => exact this.elim id (fun ⟨c, b, inner, heq, _⟩ => by cases heq)
      | .fstr g => exact this.elim id (fun ⟨c, b, inner, heq, _⟩ => by cases heq)
      | .bits g => exact this.elim id (fun ⟨c, b, inner, heq, _⟩ => by cases heq)
      | .cond c b inner =>
        rcases this with h1 | ⟨c2, b2, inner2, heq, hc2⟩
        · simp only [FieldI.value_was_computed] at h1
          simp [h1]
        · cases heq
          simp [hc2]
  · intro hok hv
    obtain ⟨Q, hgo, hfix, hall⟩ := fixed_decode_go template [] data hok hv
    refine ⟨Q, ?_, ?_⟩
    · unfold Packet.from_bytes
      rw [hgo]
      simp
    · rw [all_fields_no_cond Q hfix, hall]

/-- C7 witness: a one-`ShortField` template decoded from a 1-byte truncated
buffer reports not-all-computed, and from a complete 2-byte buffer reports
all-computed; the characterization is instantiated on a computed field. -/
theorem c7_all_fields_are_computed_witness :
    (Packet.all_fields_are_computed [.num { pieField with value_was_computed := true }] = true ↔
      ∀ f ∈ [FieldI.num { pieField with value_was_computed := true }],
        f.value_was_computed = true ∨
        (∃ c b inner, f = .cond c b inner ∧
          c (attrView [.num { pieField with value_was_computed := true }]) = false)) ∧
    (∃ Q, Packet.from_bytes [.num pieField] [7] = some Q ∧
      Packet.all_fields_are_computed Q = false) ∧
    (∃ Q, Packet.from_bytes [.num pieField] [0, 7] = some Q ∧
      Packet.all_fields_are_computed Q = true) := by
  refine ⟨(c7_all_fields_are_computed
      [.num { pieField with value_was_computed := true }] [] []).1, ?_, ?_⟩
  · obtain ⟨Q, hq, hall⟩ := (c7_all_fields_are_computed [] [.num pieField] [7]).2
      (by intro f hf
          rcases List.mem_singleton.mp hf with rfl
          exact ⟨by decide, rfl⟩)
      (by intro b hb; rcases List.mem_singleton.mp hb with rfl; decide)
    exact ⟨Q, hq, by rw [hall]; decide⟩
  · obtain ⟨Q, hq, hall⟩ := (c7_all_fields_are_computed [] [.num pieField] [0, 7]).2
      (by intro f hf
          rcases List.mem_singleton.mp hf with rfl
          exact ⟨by decide, rfl⟩)
      (by intro b hb
          rcases List.mem_cons.mp hb with rfl | hb2
          · decide
          · rcases List.mem_singleton.mp hb2 with rfl; decide)
    exact ⟨Q, hq, by rw [hall]; decide⟩

/-!
Claim C1: encode/decode round trip, per field kind and for composed
packets.
-/

/-- A field with its computed flag set (what a successful decode of the
same values produces). -/
def FieldI.markComputed : FieldI → FieldI
  | .num f => .num { f with value_was_computed := true }
  | .fstr f => .fstr { f with value_was_computed := true }
  | .bits f => .bits { f with value_was_computed := true }
  | .cond c _ inner => .cond c true inner.markComputed

/-- The observable value of a field: the integer of a numeric or bits field
(the composite value for the latter), the bytes of a string field, and the
inner value for a conditional. -/
def FieldI.fieldValue : FieldI → PyVal
  | .num f => .int f.value
  | .fstr f => .bytes f.value
  | .bits f => .int (f.value : Int)
  | .cond _ _ inner => inner.fieldValue

theorem markComputed_fieldValue (f : FieldI) :
    f.markComputed.fieldValue = f.fieldValue := by
  induction f with
  | num g => rfl
  | fstr g => rfl
  | bits g => rfl
  | cond c b inner ih =>
    simp only [FieldI.markComputed, FieldI.fieldValue]
    exact ih

/-- Validity of a fixed field's state as the library maintains it: positive
size, in-range value (for strings: exact length and byte-valued entries),
and for bits fields the construction invariant with positive part widths
and in-range part values. -/
def fixedOk : FieldI → Prop
  | .num f => 0 < f.fmt.nbytes ∧ numericInRange f.fmt f.value = true
  | .fstr f => 0 < f.length ∧ f.value.length = f.length ∧ validBytes f.value
  | .bits f => 0 < f.nbytes ∧ sumSizes f.parts = 8 * f.nbytes ∧
      ∀ p ∈ f.parts, 0 < p.size ∧ p.value < 2 ^ p.size
  | .cond _ _ _ => False

/-- Validity through conditional wrappers. -/
def fieldOk : FieldI → Prop
  | .cond _ _ inner => fieldOk inner
  | f => fixedOk f

/-- Two field parts with the same name, default and bit size (their values
may differ). -/
def samePartShape (p q : FieldPart) : Prop :=
  p.name = q.name ∧ p.default = q.default ∧ p.size = q.size

/-- Two fields of the same kind and static configuration — e.g. a packet
class template and an instance of it whose values were overwritten. -/
def sameShape : FieldI → FieldI → Prop
  | .num a, .num b => a.name = b.name ∧ a.fmt = b.fmt ∧ a.order = b.order
      ∧ a.default = b.default
  | .fstr a, .fstr b => a.name = b.name ∧ a.length = b.length
      ∧ a.default = b.default
  | .bits a, .bits b => a.nbytes = b.nbytes ∧ a.order = b.order
      ∧ List.Forall₂ samePartShape a.parts b.parts
  | _, _ => False

theorem sameShape_refl (f : FieldI) (h : f.isFixedKind) : sameShape f f := by
  match f with
  | .num g => exact ⟨rfl, rfl, rfl, rfl⟩
  | .fstr g => exact ⟨rfl, rfl, rfl⟩
  | .bits g =>
    refine ⟨rfl, rfl, ?_⟩
    exact List.forall₂_same.mpr (fun p _ => ⟨rfl, rfl, rfl⟩)
  | .cond c b inner => exact absurd h (by simp [FieldI.isFixedKind])

/-- An in-range value always packs. -/
theorem structPack_of_inRange (o : ByteOrder) (fmt : NumFmt) (v : Int)
    (h : numericInRange fmt v = true) : ∃ bs, structPack o fmt v = some bs := by
  unfold numericInRange at h
  unfold structPack
  by_cases hs : fmt.signed
  · rw [if_pos hs] at h
    rw [Bool.and_eq_true, decide_eq_true_iff, decide_eq_true_iff] at h
    simp only [hs, if_true]
    rw [if_pos (by constructor <;> omega)]
    exact ⟨_, rfl⟩
  · rw [if_neg hs] at h
    rw [Bool.and_eq_true, decide_eq_true_iff, decide_eq_true_iff] at h
    simp only [hs, Bool.false_eq_true, if_false]
    rw [if_pos (by constructor <;> omega)]
    exact ⟨_, rfl⟩

/-- `setPartsInt` through a template's parts, fed the instance parts'
concatenated renderings, reproduces the instance parts (the template parts
share names, defaults and sizes; only their values are overwritten). -/
theorem setPartsInt_shape (ps qs : List FieldPart)
    (h : List.Forall₂ samePartShape ps qs)
    (hv : ∀ q ∈ qs, 0 < q.size ∧ q.value < 2 ^ q.size) :
    setPartsInt ps ((qs.map FieldPart.bits).flatten) = (qs, true) := by
  induction h with
  | nil => rfl
  | cons hpq hrest ih =>
    rename_i p q ps' qs'
    obtain ⟨hn, hd, hsz⟩ := hpq
    obtain ⟨h0, hvlt⟩ := hv q (by simp)
    have hvrest : ∀ r ∈ qs', 0 < r.size ∧ r.value < 2 ^ r.size :=
      fun r hr => hv r (by simp [hr])
    have hlenq : q.bits.length = q.size := fieldPart_bits_length q h0 hvlt
    simp only [List.map_cons, List.flatten_cons]
    unfold setPartsInt
    have htake : (q.bits ++ (qs'.map FieldPart.bits).flatten).take p.size
        = q.bits := by
      rw [hsz, ← hlenq]
      exact List.take_left q.bits _
    have hdrop : (q.bits ++ (qs'.map FieldPart.bits).flatten).drop p.size
        = (qs'.map FieldPart.bits).flatten := by
      rw [hsz, ← hlenq]
      exact List.drop_left q.bits _
    rw [htake, hdrop]
    have hne : ¬ q.bits.isEmpty := by
      cases hbt : q.bits with
      | nil => rw [hbt] at hlenq; simp at hlenq; omega
      | cons x xs => simp
    rw [if_neg (by simpa using hne)]
    rw [ih hvrest, fieldPart_bits_val q]
    have : ({ p with value := q.value } : FieldPart) = q := by
      cases p; cases q
      simp_all
    rw [this]

/-- One fixed field round trip, template against instance: the instance's
encoding decodes through the template into exactly the instance with its
computed flag set, whatever the packet views are, consuming exactly the
encoding. -/
theorem fixed_roundtrip (t p : FieldI) (hs : sameShape t p) (hok : fixedOk p)
    (view view2 : String → Option PyVal) :
    ∃ bs, FieldI.raw p view = some bs ∧ validBytes bs ∧ bs.length = p.sizeB ∧
      ∀ rest, FieldI.compute_value t (bs ++ rest) view2
        = (p.markComputed, rest, true) := by
  match t, p with
  | .num a, .num b =>
    obtain ⟨hn, hf, ho, hd⟩ := hs
    obtain ⟨hpos, hrange⟩ := hok
    obtain ⟨bs, hbs⟩ := structPack_of_inRange b.order b.fmt b.value hrange
    refine ⟨bs, hbs, structPack_valid _ _ _ _ hbs, ?_, ?_⟩
    · rw [structPack_length _ _ _ _ hbs]; rfl
    · intro rest
      have hlen : bs.length = b.fmt.nbytes := structPack_length _ _ _ _ hbs
      have htake : (bs ++ rest).take a.fmt.nbytes = bs := by
        rw [hf, ← hlen]
        exact List.take_left bs rest
      have hdrop : (bs ++ rest).drop a.fmt.nbytes = rest := by
        rw [hf, ← hlen]
        exact List.drop_left bs rest
      have hunp : structUnpack a.order a.fmt bs = b.value := by
        rw [hf, ho]
        exact structUnpack_structPack b.order b.fmt b.value bs hpos hbs
      have hlen2 : bs.length = a.fmt.nbytes := by rw [hf]; exact hlen
      simp only [FieldI.compute_value, NumericField.compute_value]
      rw [if_neg (by simp only [List.length_append]; omega)]
      rw [htake, hdrop, hunp]
      show (FieldI.num { a with value := b.value, value_was_computed := true },
        rest, true) = _
      rw [show ({ a with value := b.value, value_was_computed := true }
          : NumericField) = { b with value_was_computed := true } by
        cases a; cases b; simp_all]
      rfl
  | .fstr a, .fstr b =>
    obtain ⟨hn, hl, hd⟩ := hs
    obtain ⟨hpos, hlen, hvb⟩ := hok
    refine ⟨b.value, rfl, hvb, hlen, ?_⟩
    intro rest
    have htake : (b.value ++ rest).take a.length = b.value := by
      rw [hl, ← hlen]
      exact List.take_left b.value rest
    have hdrop : (b.value ++ rest).drop a.length = rest := by
      rw [hl, ← hlen]
      exact List.drop_left b.value rest
    have hlen2 : b.value.length = a.length := by rw [hl]; exact hlen
    simp only [FieldI.compute_value, FixedStringField.compute_value]
    rw [if_neg (by simp only [List.length_append]; omega)]
    rw [htake, hdrop]
    show (FieldI.fstr { a with value := b.value, value_was_computed := true },
      rest, true) = _
    rw [show ({ a with value := b.value, value_was_computed := true }
        : FixedStringField) = { b with value_was_computed := true } by
      cases a; cases b; simp_all]
    rfl
  | .bits a, .bits b =>
    obtain ⟨hnb, ho, hparts⟩ := hs
    obtain ⟨hpos, hsum, hpv⟩ := hok
    have hflat_len : ((b.parts.map FieldPart.bits).flatten).length
        = 8 * b.nbytes := by
      rw [flatten_bits_length b.parts hpv, hsum]
    have hvlt : b.value < 2 ^ (8 * b.nbytes) := by
      have := bitsToNat_lt ((b.parts.map FieldPart.bits).flatten)
      rw [hflat_len] at this
      exact this
    have hpack : structPack b.order ⟨false, b.nbytes⟩ (b.value : Int)
        = some (packBytes b.order b.nbytes b.value) := by
      unfold structPack
      simp only [Bool.false_eq_true, if_false]
      rw [if_pos ⟨Int.natCast_nonneg _, by exact_mod_cast hvlt⟩]
      rw [Int.toNat_natCast]
    refine ⟨packBytes b.order b.nbytes b.value, hpack,
      packBytes_valid _ _ _, by rw [packBytes_length]; rfl, ?_⟩
    intro rest
    set bs := packBytes b.order b.nbytes b.value with hbsdef
    have hlen : bs.length = b.nbytes := packBytes_length _ _ _
    have htake : (bs ++ rest).take a.nbytes = bs := by
      rw [hnb, ← hlen]
      exact List.take_left bs rest
    have hdrop : (bs ++ rest).drop a.nbytes = rest := by
      rw [hnb, ← hlen]
      exact List.drop_left bs rest
    have hunp : structUnpack a.order ⟨false, a.nbytes⟩ bs = (b.value : Int) := by
      rw [ho, hnb]
      exact structUnpack_structPack b.order ⟨false, b.nbytes⟩ (b.value : Int)
        bs hpos hpack
    have hsetbits : padBits (8 * a.nbytes) (binStr ((b.value : Int)).toNat)
        = (b.parts.map FieldPart.bits).flatten := by
      rw [hnb, Int.toNat_natCast]
      have := padBits_binStr_bitsToNat ((b.parts.map FieldPart.bits).flatten)
        (by rw [hflat_len]; omega)
      rw [hflat_len] at this
      exact this
    have hset : a.set_value (.int (b.value : Int))
        = ({ a with parts := b.parts }, true) := by
      simp only [BitsField.set_value]
      rw [if_neg (by
        push_neg
        refine ⟨Int.natCast_nonneg _, ?_⟩
        have h1 : ((b.value : Nat) : Int) < ((2 ^ (8 * a.nbytes) : Nat) : Int) := by
          rw [hnb]; exact_mod_cast hvlt
        have hc : (((2 : Nat) ^ (8 * a.nbytes) : Nat) : Int)
            = (2 : Int) ^ (8 * a.nbytes) := by push_cast; ring
        omega)]
      rw [hsetbits, setPartsInt_shape a.parts b.parts hparts hpv]
    have hlen2 : bs.length = a.nbytes := by rw [hnb]; exact hlen
    simp only [FieldI.compute_value, BitsField.compute_value]
    rw [if_neg (by simp only [List.length_append]; omega)]
    rw [htake, hdrop, hunp, hset]
    simp only [if_true]
    show (FieldI.bits { parts := b.parts, nbytes := a.nbytes, order := a.order, value_was_computed := true }, rest, true) = _
    rw [hnb, ho]
    rfl

/-- `raw` of a fixed field ignores the packet view. -/
theorem raw_fixed_view_indep (f : FieldI) (h : fixedOk f)
    (v1 v2 : String → Option PyVal) : FieldI.raw f v1 = FieldI.raw f v2 := by
  match f with
  | .num g => rfl
  | .fstr g => rfl
  | .bits g => rfl
  | .cond c b inner => exact absurd h (by simp [fixedOk])

/-- Every list of valid fixed fields encodes: `mapM` of the raws succeeds
with one byte string per field, for any view. -/
theorem rawsM_fixed (P : List FieldI) (h : ∀ f ∈ P, fixedOk f) :
    ∃ bss, List.Forall₂
        (fun p bs => ∀ v : String → Option PyVal, FieldI.raw p v = some bs)
        P bss ∧
      ∀ view : String → Option PyVal,
        P.mapM (fun f => FieldI.raw f view) = some bss := by
  induction P with
  | nil => exact ⟨[], List.Forall₂.nil, fun _ => rfl⟩
  | cons f P' ih =>
    obtain ⟨bss', hall', hmap'⟩ := ih (fun g hg => h g (by simp [hg]))
    have hfok := h f (by simp)
    obtain ⟨bs, hbs, _, _, _⟩ := fixed_roundtrip f f
      (sameShape_refl f (by
        match f with
        | .num g => trivial
        | .fstr g => trivial
        | .bits g => trivial
        | .cond c b inner => exact absurd hfok (by simp [fixedOk])))
      hfok (fun _ => none) (fun _ => none)
    refine ⟨bs :: bss', List.Forall₂.cons ?_ hall', ?_⟩
    · intro v
      rw [raw_fixed_view_indep f hfok v (fun _ => none)]
      exact hbs
    · intro view
      rw [List.mapM_cons]
      rw [raw_fixed_view_indep f hfok view (fun _ => none), hbs, hmap' view]
      rfl

/-- The decode loop, template against instance: decoding the instance's
concatenated encoding through the template yields the instance with all
computed flags set; trailing bytes are left alone. -/
theorem from_bytes_go_roundtrip (T P : List FieldI) (bss : List (List Nat))
    (hTP : List.Forall₂ sameShape T P) (hok : ∀ f ∈ P, fixedOk f)
    (hPb : List.Forall₂
      (fun p bs => ∀ v : String → Option PyVal, FieldI.raw p v = some bs)
      P bss) :
    ∀ done rest, from_bytes_go done T (bss.flatten ++ rest)
      = (done ++ P.map FieldI.markComputed, true) := by
  induction hTP generalizing bss with
  | nil =>
    cases hPb
    intro done rest
    simp [from_bytes_go]
  | cons hs hrest ih =>
    rename_i t p T' P'
    cases hPb with
    | cons hpb hrestb =>
      rename_i bs bss'
      intro done rest
      obtain ⟨bs0, hbs0, _, _, hcomp⟩ := fixed_roundtrip t p hs
        (hok p (by simp)) (fun _ => none)
        (attrView (done ++ t :: T'))
      have hbseq : bs = bs0 := by
        have := hpb (fun _ => none)
        rw [this] at hbs0
        exact Option.some.inj hbs0
      subst hbseq
      have hdata : (bs :: bss').flatten ++ rest = bs ++ (bss'.flatten ++ rest) := by
        simp
      rw [hdata]
      show from_bytes_go done (t :: T') (bs ++ (bss'.flatten ++ rest)) = _
      simp only [from_bytes_go]
      rw [hcomp (bss'.flatten ++ rest)]
      simp only [if_true]
      rw [ih bss' (fun g hg => hok g (by simp [hg])) hrestb (done ++ [p.markComputed]) rest]
      simp

/-- C1, counterexample to the claim as stated: on the accepted `BitsField`
with a zero-width part, the valid tuple `(255, 0)` is set successfully, but
`raw` then raises (`struct.pack` of 510 on one byte), so encode-then-decode
cannot return the value. -/
theorem c1_counterexample :
    (zeroWidthPartField0.set_value (.tuple [255, 0])).2 = true ∧
      BitsField.raw (zeroWidthPartField0.set_value (.tuple [255, 0])).1
        = none := by
  decide

/-- C1 (amended: `BitsField` parts at least one bit wide; fixed strings in
byte mode): (a) for every field kind including conditional wrappers, `raw`
followed by `compute_value` on the produced bytes returns a field with the
same observable value, an empty remaining buffer and no exception; (b) for
a packet template and an instance of the same shape whose fields are fixed
kinds, `from_bytes` on the instance's `raw` reproduces exactly the
instance's fields with computed flags set, hence equal field values. -/
theorem c1_encode_decode_roundtrip :
    (∀ (f : FieldI) (view : String → Option PyVal), fieldOk f →
      ∃ bs f', FieldI.raw f view = some bs ∧
        FieldI.compute_value f bs view = (f', [], true) ∧
        f'.fieldValue = f.fieldValue) ∧
    (∀ (T P : List FieldI) (data : List Nat),
      List.Forall₂ sameShape T P → (∀ f ∈ P, fixedOk f) →
      Packet.raw P = some data →
      Packet.from_bytes T data = some (P.map FieldI.markComputed) ∧
      (P.map FieldI.markComputed).map FieldI.fieldValue
        = P.map FieldI.fieldValue) := by
  constructor
  · intro f
    induction f with
    | num g =>
      intro view h
      obtain ⟨bs, hbs, _, _, hcomp⟩ := fixed_roundtrip (.num g) (.num g)
        (sameShape_refl _ trivial) h view view
      refine ⟨bs, (FieldI.num g).markComputed, hbs, ?_, markComputed_fieldValue _⟩
      have := hcomp []
      rwa [List.append_nil] at this
    | fstr g =>
      intro view h
      obtain ⟨bs, hbs, _, _, hcomp⟩ := fixed_roundtrip (.fstr g) (.fstr g)
        (sameShape_refl _ trivial) h view view
      refine ⟨bs, (FieldI.fstr g).markComputed, hbs, ?_, markComputed_fieldValue _⟩
      have := hcomp []
      rwa [List.append_nil] at this
    | bits g =>
      intro view h
      obtain ⟨bs, hbs, _, _, hcomp⟩ := fixed_roundtrip (.bits g) (.bits g)
        (sameShape_refl _ trivial) h view view
      refine ⟨bs, (FieldI.bits g).markComputed, hbs, ?_, markComputed_fieldValue _⟩
      have := hcomp []
      rwa [List.append_nil] at this
    | cond c b inner ih =>
      intro view h
      have hin : fieldOk inner := h
      by_cases hc : c view = true
      · obtain ⟨bs, f', hbs, hcomp, hval⟩ := ih view hin
        refine ⟨bs, .cond c f'.value_was_computed f', ?_, ?_, hval⟩
        · simp [FieldI.raw, hc, hbs]
        · simp [FieldI.compute_value, hc, hcomp]
      · refine ⟨[], .cond c b inner, ?_, ?_, rfl⟩
        · simp [FieldI.raw, hc]
        · simp [FieldI.compute_value, hc]
  · intro T P data hTP hok hraw
    obtain ⟨bss, hall, hmapM⟩ := rawsM_fixed P hok
    have hdata : data = bss.flatten := by
      unfold Packet.raw at hraw
      rw [hmapM (attrView P)] at hraw
      simpa using hraw.symm
    subst hdata
    constructor
    · unfold Packet.from_bytes
      have hgo := from_bytes_go_roundtrip T P bss hTP hok hall [] []
      rw [List.append_nil] at hgo
      rw [hgo]
      simp
    · rw [List.map_map]
      have : FieldI.fieldValue ∘ FieldI.markComputed = FieldI.fieldValue :=
        funext markComputed_fieldValue
      rw [this]

/-- C1 witness: the conditional `pie` field round-trips under a true
predicate, and a one-`ShortField` packet instance with value 7 decodes from
its own two-byte encoding back to value 7, computed. -/
theorem c1_encode_decode_roundtrip_witness :
    (∃ bs f', FieldI.raw (.cond applesLe2 false pieInner) viewApples1 = some bs ∧
      FieldI.compute_value (.cond applesLe2 false pieInner) bs viewApples1
        = (f', [], true) ∧
      f'.fieldValue = (FieldI.cond applesLe2 false pieInner).fieldValue) ∧
    (Packet.from_bytes [.num pieField] [0, 7]
        = some [.num { pieField with value := 7, value_was_computed := true }] ∧
      [FieldI.num { pieField with value := 7, value_was_computed := true }].map FieldI.fieldValue
        = [FieldI.num { pieField with value := 7 }].map FieldI.fieldValue) := by
  constructor
  · exact c1_encode_decode_roundtrip.1 (.cond applesLe2 false pieInner)
      viewApples1 (by constructor <;> decide)
  · have h := c1_encode_decode_roundtrip.2 [.num pieField]
      [.num { pieField with value := 7 }] [0, 7]
      (List.Forall₂.cons ⟨rfl, rfl, rfl, rfl⟩ List.Forall₂.nil)
      (by intro f hf
          rcases List.mem_singleton.mp hf with rfl
          exact ⟨by decide, by decide⟩)
      (by rfl)
    exact h

/-!
Claim C6: `extract_layers`.  The source assigns `cursor =
len(packet.raw)` after each layer instead of advancing the cursor by that
length, so from the third layer on the decode starts at the wrong offset.
-/

/-- A packet class holding one unsigned byte field of the given name. -/
def oneByteLayer (s : String) : List FieldI :=
  [.num ⟨s, ⟨false, 1⟩, .big, 0, 0, false⟩]

/-- C6 evaluation at the failing input: three one-byte layers over
`b'\x01\x02\x03'`.  The code decodes the third layer from offset 1 (the
cursor was *assigned* `len(layer2.raw) = 1`), reading 2; decoding from the
sum of the previous layers' lengths (offset 2) would read 3.  The
`ValueError`/`TypeError` argument checks behave as claimed. -/
theorem c6_extract_layers_cursor_bug :
    extract_layers [1, 2, 3]
        [.cls (oneByteLayer "a"), .cls (oneByteLayer "b"), .cls (oneByteLayer "c")]
      = .ok [[.num ⟨"a", ⟨false, 1⟩, .big, 0, 1, true⟩],
             [.num ⟨"b", ⟨false, 1⟩, .big, 0, 2, true⟩],
             [.num ⟨"c", ⟨false, 1⟩, .big, 0, 2, true⟩]] ∧
    Packet.from_bytes (oneByteLayer "c") ([1, 2, 3].drop (1 + 1))
      = some [.num ⟨"c", ⟨false, 1⟩, .big, 0, 3, true⟩] ∧
    extract_layers [1, 2, 3] [] = .error .valueError ∧
    extract_layers [1, 2, 3] [.cls (oneByteLayer "a"), .notAClass]
      = .error .typeError := by
  refine ⟨?_, ?_, ?_, ?_⟩ <;> rfl

end Kifurushi
